import Mathlib

/-!
Verification of the `txpool_v2` core of this repository: a shallow embedding of
`pool.rs` and `selection_algorithms/ratio_tip_gas.rs`, together with models of
the storage and collision-manager components (whose implementations are not part
of the sources at hand and are therefore modelled from the specification).

Machine integers (`u64`, `usize`) are embedded as `Nat`; the code uses
saturating arithmetic throughout (`saturating_add` / `saturating_sub`), so
`Nat` subtraction models `saturating_sub` exactly and `Nat` addition models
`saturating_add` on the non-overflowing range.  `num_rational::Ratio<u64>`
values are embedded as numerator/denominator pairs compared exactly by
cross-multiplication, which agrees with `Ratio`'s exact ordering whenever the
denominators are positive (the code only constructs ratios with positive
denominators: `Ratio::new` panics on a zero denominator).
-/

/- Throughout, three conceptually distinct scalar kinds are all embedded as
`Nat`: stable storage indices (`S::StorageIndex`), transaction ids (a
32-byte hash ordered bytewise), and creation instants (`std::time` instants,
a monotone counter). -/

/-- The fields of `PoolTransaction` that the pool core reads: id, tip,
`max_gas`, `metered_bytes_size`, the collision keys claimed by its inputs,
the output ids it creates, and an optional blob id. -/
structure PoolTx where
  txId : Nat
  tip : Nat
  max_gas : Nat
  metered_bytes_size : Nat
  inputKeys : List Nat
  outputIds : List Nat
  blob_id : Option Nat
deriving Repr, DecidableEq

/-- The error taxonomy used by the embedded code paths. -/
inductive Err where
  | database
  | blacklisted
  | notInsertedBlobIdAlreadyTaken
  | notInsertedInputMissing
  | collided
  | notInsertedLimitHit
  | transactionNotFound
  | parentsNotEmpty
  | panicDependentMissing
deriving Repr, DecidableEq

/-- `StorageData`: the resident record kept by the storage component. -/
structure StorageData where
  transaction : PoolTx
  creation_instant : Nat
  parents : List Nat
  children : List Nat
  dependents_cumulative_gas : Nat
  dependents_cumulative_bytes_size : Nat
  dependents_cumulative_tip : Nat
deriving Repr, DecidableEq

/-- Association-list lookup (first entry wins), the model for map lookups. -/
def alGet {α : Type} (l : List (Nat × α)) (k : Nat) : Option α :=
  match l with
  | [] => none
  | (k', v) :: rest => if k' = k then some v else alGet rest k

/-- Association-list removal of a key, the model for map `remove`. -/
def alRemove {α : Type} (l : List (Nat × α)) (k : Nat) : List (Nat × α) :=
  l.filter (fun e => decide (e.1 ≠ k))

/-- Association-list insert-or-replace, the model for map `insert`. -/
def alPut {α : Type} (l : List (Nat × α)) (k : Nat) (v : α) : List (Nat × α) :=
  match l with
  | [] => [(k, v)]
  | (k', v') :: rest => if k' = k then (k, v) :: rest else (k', v') :: alPut rest k v

/-- Exact comparison of the rationals `a.1/a.2` and `b.1/b.2` by
cross-multiplication, the embedding of `Ord for Ratio<u64>` (exact for
positive denominators, which is the only case the code constructs). -/
def ratioCmp (a b : Nat × Nat) : Ordering :=
  compare (a.1 * b.2) (b.1 * a.2)

/-- `Key` from `ratio_tip_gas.rs`: the sort key of the selection structure.
The ratio is kept as the (tip, max_gas) pair and compared exactly. -/
structure Key where
  ratioTip : Nat
  ratioGas : Nat
  creation_instant : Nat
  txId : Nat
deriving Repr, DecidableEq

/-- `Key::cmp` exactly as written in the source: ratio ascending first
(`self.ratio.cmp(&other.ratio)`); on a tie, creation instant compared the
other way round (`other.creation_instant.cmp(&self.creation_instant)`); on a
further tie, transaction id ascending (`self.tx_id.cmp(&other.tx_id)`). -/
def Key.cmp (s o : Key) : Ordering :=
  let c := ratioCmp (s.ratioTip, s.ratioGas) (o.ratioTip, o.ratioGas)
  if c = Ordering.eq then
    let instantCmp := compare o.creation_instant s.creation_instant
    if instantCmp = Ordering.eq then compare s.txId o.txId
    else instantCmp
  else c

/-- Iteration order of `BTreeMap<Reverse<Key>, _>`: `a` is visited before `b`
iff `Reverse a < Reverse b`, i.e. iff `Key.cmp b a = lt`. -/
def iterBefore (a b : Key) : Prop := Key.cmp b a = Ordering.lt

instance : DecidablePred fun p : Key × Key => iterBefore p.1 p.2 := by
  intro p; unfold iterBefore; infer_instance

instance (a b : Key) : Decidable (iterBefore a b) := by
  unfold iterBefore; infer_instance

/-- The selection-algorithm state (`RatioTipGasSelection`):
`executable_transactions_sorted_tip_gas_ratio` is the `BTreeMap` keyed by
`Reverse<Key>`, embedded as a list kept in iteration order;
`tx_id_to_creation_instant` is the auxiliary `HashMap`. -/
structure SA where
  sorted : List (Key × Nat)
  instants : List (Nat × Nat)
deriving Repr, DecidableEq

/-- `BTreeMap::insert` on the `Reverse<Key>` map: walk the iteration order,
replace the value of a `cmp`-equal key (the stored key object is kept, as in
Rust), otherwise insert the new entry before the first strictly later key. -/
def saInsert (l : List (Key × Nat)) (k : Key) (v : Nat) : List (Key × Nat) :=
  match l with
  | [] => [(k, v)]
  | (k', v') :: rest =>
    match Key.cmp k' k with
    | Ordering.eq => (k', v) :: rest
    | Ordering.lt => (k, v) :: (k', v') :: rest
    | Ordering.gt => (k', v') :: saInsert rest k v

/-- `BTreeMap::remove`: drop the (at most one) entry whose key is `cmp`-equal
to the given key. -/
def saRemove (l : List (Key × Nat)) (k : Key) : List (Key × Nat) :=
  match l with
  | [] => []
  | (k', v') :: rest =>
    if Key.cmp k' k = Ordering.eq then rest else (k', v') :: saRemove rest k

/-- `RatioTipGasSelection::on_removed_transaction_inner`: always remove the
creation instant recorded for the tx id; if one was present, remove the
reconstructed key from the sorted structure. -/
def SA.on_removed_transaction_inner (sa : SA) (ratioTip ratioGas : Nat) (txId : Nat) : SA :=
  match alGet sa.instants txId with
  | none => { sa with instants := alRemove sa.instants txId }
  | some inst =>
    { sorted := saRemove sa.sorted ⟨ratioTip, ratioGas, inst, txId⟩
      instants := alRemove sa.instants txId }

/-- `RatioTipGasSelection::on_stored_transaction_inner`: record the creation
instant and build the key for the entry. -/
def SA.on_stored_transaction_inner (sa : SA) (entry : StorageData) : Key × SA :=
  (⟨entry.transaction.tip, entry.transaction.max_gas,
    entry.creation_instant, entry.transaction.txId⟩,
   { sa with instants := alPut sa.instants entry.transaction.txId entry.creation_instant })

/-- `RatioTipGasSelection::new_executable_transaction`. -/
def SA.new_executable_transaction (sa : SA) (storage_id : Nat) (entry : StorageData) : SA :=
  let (key, sa') := sa.on_stored_transaction_inner entry
  { sa' with sorted := saInsert sa'.sorted key storage_id }

/-- `RatioTipGasSelection::on_removed_transaction`: rebuild the tip/gas ratio
from the transaction and delegate to the inner removal. -/
def SA.on_removed_transaction (sa : SA) (tx : PoolTx) : SA :=
  sa.on_removed_transaction_inner tx.tip tx.max_gas tx.txId

/-- Modelled from the spec: the storage component (`storage.rs` is not among
the sources at hand; §4.1 of the specification describes it).  Residents are
kept in an association list from stable index to record; `next_index` is the
arena's fresh-index counter and `clock` the monotone source of
`creation_instant`s. -/
structure Storage where
  entries : List (Nat × StorageData)
  next_index : Nat
  clock : Nat
deriving Repr, DecidableEq

/-- `Storage::get` (an `Option`: the Rust `Result` errors on a missing index,
which callers surface via `?`). -/
def Storage.get (st : Storage) (i : Nat) : Option StorageData :=
  alGet st.entries i

/-- `Storage::count`. -/
def Storage.count (st : Storage) : Nat := st.entries.length

/-- Children of a resident (`get_dependents` in the selection storage trait):
the `children` edge set of the record, empty for a missing index. -/
def Storage.childrenOf (st : Storage) (i : Nat) : List Nat :=
  match st.get i with
  | none => []
  | some d => d.children

/-- Constraints handed to the selection algorithm (`Constraints`). -/
structure Constraints where
  max_gas : Nat
deriving Repr, DecidableEq

/-- Accumulator of the scanning loop inside one pass of `gather_best_txs`:
remaining gas, selected `(key, storage_id)` pairs, keys of entries missing
from storage (`transactions_to_remove`), and the direct dependents of the
selected entries (`transactions_to_promote`), each in accumulation order. -/
structure ScanAcc where
  gas_left : Nat
  best : List (Key × Nat)
  to_remove : List Key
  to_promote : List Nat
deriving Repr, DecidableEq

/-- One step of the scanning loop of `gather_best_txs` (lines 151-173 of
`ratio_tip_gas.rs`): a missing entry is queued for removal; an entry whose
`max_gas` exceeds the remaining gas is skipped; otherwise it is selected, the
gas subtracted, and its direct dependents queued for promotion. -/
def scanStep (st : Storage) (acc : ScanAcc) (e : Key × Nat) : ScanAcc :=
  match st.get e.2 with
  | none => { acc with to_remove := acc.to_remove ++ [e.1] }
  | some d =>
    if d.transaction.max_gas > acc.gas_left then acc
    else
      { gas_left := acc.gas_left - d.transaction.max_gas
        best := acc.best ++ [(e.1, e.2)]
        to_remove := acc.to_remove
        to_promote := acc.to_promote ++ d.children }

/-- The scanning loop over the whole sorted structure. -/
def scanList (st : Storage) (entries : List (Key × Nat)) (gas_left : Nat) : ScanAcc :=
  entries.foldl (scanStep st) ⟨gas_left, [], [], []⟩

/-- Apply `on_removed_transaction_inner` for each queued key (the key carries
the ratio and tx id used by the code). -/
def applyRemovals (sa : SA) (ks : List Key) : SA :=
  ks.foldl (fun s k => s.on_removed_transaction_inner k.ratioTip k.ratioGas k.txId) sa

/-- Insert every promoted index into the structure; the code `expect`s the
index to be resident, so a missing one is a panic, modelled as `none`. -/
def promoteAll (st : Storage) (sa : SA) (ps : List Nat) : Option SA :=
  match ps with
  | [] => some sa
  | p :: rest =>
    match st.get p with
    | none => none
    | some d => promoteAll st (sa.new_executable_transaction p d) rest

/-- One iteration of the `while` loop of `gather_best_txs`: scan, drop the
missing entries, exit if nothing was selected and nothing is to promote,
otherwise remove the selected entries, record them, and promote the
dependents.  Returns the new gas, the selected indices in selection order,
the new structure, and whether the loop `break`s. -/
def gatherPass (st : Storage) (gas_left : Nat) (sa : SA) :
    Option (Nat × List Nat × SA × Bool) :=
  let a := scanList st sa.sorted gas_left
  let sa1 := applyRemovals sa a.to_remove
  if a.best = [] ∧ a.to_promote = [] then some (gas_left, [], sa1, true)
  else
    let sa2 := applyRemovals sa1 (a.best.map Prod.fst)
    match promoteAll st sa2 a.to_promote with
    | none => none
    | some sa3 => some (a.gas_left, a.best.map Prod.snd, sa3, false)

/-- The fuelled `while` loop of `gather_best_txs`.  Fuel `0` yields `none`,
so a `some` result always corresponds to a run of the source loop that exits
through its own conditions. -/
def gatherGo (st : Storage) : Nat → Nat → SA → List Nat → Option (List Nat × SA)
  | 0, _, _, _ => none
  | fuel + 1, gas_left, sa, acc =>
    if gas_left > 0 ∧ sa.sorted ≠ [] then
      match gatherPass st gas_left sa with
      | none => none
      | some (gas', sel, sa', exited) =>
        if exited then some (acc, sa')
        else gatherGo st fuel gas' sa' (acc ++ sel)
    else some (acc, sa)

/-- `RatioTipGasSelection::gather_best_txs`. -/
def gather_best_txs (st : Storage) (cons : Constraints) (fuel : Nat) (sa : SA) :
    Option (List Nat × SA) :=
  gatherGo st fuel cons.max_gas sa []

/-- Append the elements of `next` that are in neither `acc` nor the already
kept part, preserving order (a helper for the closure computations). -/
def dedupAppend (acc next : List Nat) : List Nat :=
  next.foldl (fun l j => if acc.contains j ∨ l.contains j then l else l ++ [j]) []

/-- Modelled from the spec: transitive closure along `children` edges
(fuelled breadth-first expansion; the fuel `entries.length` suffices since
every round adds at least one yet-unseen resident). -/
def Storage.descendantsAux (st : Storage) : Nat → List Nat → List Nat
  | 0, acc => acc
  | fuel + 1, acc =>
    let next := dedupAppend acc (acc.foldl (fun l i => l ++ st.childrenOf i) [])
    if next = [] then acc else st.descendantsAux fuel (acc ++ next)

/-- `i` together with all its transitive descendants. -/
def Storage.subtreeOf (st : Storage) (i : Nat) : List Nat :=
  st.descendantsAux (st.count + 1) [i]

/-- Parents of a resident, empty for a missing index. -/
def Storage.parentsOf (st : Storage) (i : Nat) : List Nat :=
  match st.get i with
  | none => []
  | some d => d.parents

/-- Modelled from the spec: transitive closure along `parents` edges. -/
def Storage.ancestorsAux (st : Storage) : Nat → List Nat → List Nat
  | 0, acc => acc
  | fuel + 1, acc =>
    let next := dedupAppend acc (acc.foldl (fun l i => l ++ st.parentsOf i) [])
    if next = [] then acc else st.ancestorsAux fuel (acc ++ next)

/-- The strict ancestors of the residents in `start` together with `start`
itself. -/
def Storage.ancestorsWith (st : Storage) (start : List Nat) : List Nat :=
  st.ancestorsAux (st.count + 1) start

/-- Modelled from the spec:
`Storage::remove_transaction_and_dependents_subtree(i)` removes `i` and every
transitive descendant, decrements the aggregates of every still-resident
ancestor of each removed node by that node's per-transaction fields, and
returns the removed transactions.  The spec leaves a missing `i` unspecified;
it is modelled as removing nothing. -/
def Storage.remove_transaction_and_dependents_subtree (st : Storage) (i : Nat) :
    List PoolTx × Storage :=
  match st.get i with
  | none => ([], st)
  | some _ =>
    let sub := st.subtreeOf i
    let removed := sub.filterMap (fun j => (st.get j).map (fun d => d.transaction))
    let entries' :=
      (st.entries.filter (fun e => decide (¬ sub.contains e.1))).map (fun e =>
        let j := e.1
        let d := e.2
        let below := (st.subtreeOf j).filter (fun m => sub.contains m)
        let gasLost := below.foldl (fun s m =>
          s + ((st.get m).map (fun dm => dm.transaction.max_gas)).getD 0) 0
        let bytesLost := below.foldl (fun s m =>
          s + ((st.get m).map (fun dm => dm.transaction.metered_bytes_size)).getD 0) 0
        let tipLost := below.foldl (fun s m =>
          s + ((st.get m).map (fun dm => dm.transaction.tip)).getD 0) 0
        (j, { d with
              parents := d.parents.filter (fun q => decide (¬ sub.contains q))
              children := d.children.filter (fun q => decide (¬ sub.contains q))
              dependents_cumulative_gas := d.dependents_cumulative_gas - gasLost
              dependents_cumulative_bytes_size :=
                d.dependents_cumulative_bytes_size - bytesLost
              dependents_cumulative_tip := d.dependents_cumulative_tip - tipLost }))
    (removed, { st with entries := entries' })

/-- Modelled from the spec:
`Storage::remove_transaction_without_dependencies(i)` requires the resident to
exist and to have no parents (the precondition is modelled as a checked
error); it detaches the resident from each child (clearing `i` from the
child's parents) and returns the record.  It does not descend. -/
def Storage.remove_transaction_without_dependencies (st : Storage) (i : Nat) :
    Except Err (StorageData × Storage) :=
  match st.get i with
  | none => Except.error Err.transactionNotFound
  | some d =>
    if d.parents = [] then
      Except.ok (d,
        { st with entries :=
            (st.entries.filter (fun e => decide (e.1 ≠ i))).map (fun e =>
              if d.children.contains e.1 then
                (e.1, { e.2 with parents := e.2.parents.filter (fun q => decide (q ≠ i)) })
              else e) })
    else Except.error Err.parentsNotEmpty

/-- Modelled from the spec: `Storage::store_transaction(tx, deps)` allocates a
fresh index, links the dependencies as parents (adding the new resident to
each dependency's children), initializes the aggregates from the
transaction's own fields, and adds those fields to the aggregates of every
ancestor. -/
def Storage.store_transaction (st : Storage) (tx : PoolTx) (deps : List Nat) :
    Nat × Storage :=
  let i := st.next_index
  let anc := st.ancestorsWith deps
  let newData : StorageData :=
    { transaction := tx
      creation_instant := st.clock
      parents := deps
      children := []
      dependents_cumulative_gas := tx.max_gas
      dependents_cumulative_bytes_size := tx.metered_bytes_size
      dependents_cumulative_tip := tx.tip }
  let entries' := st.entries.map (fun e =>
    let j := e.1
    let d := e.2
    let d1 := if deps.contains j then { d with children := d.children ++ [i] } else d
    if anc.contains j then
      (j, { d1 with
            dependents_cumulative_gas := d1.dependents_cumulative_gas + tx.max_gas
            dependents_cumulative_bytes_size :=
              d1.dependents_cumulative_bytes_size + tx.metered_bytes_size
            dependents_cumulative_tip := d1.dependents_cumulative_tip + tx.tip })
    else (j, d1))
  (i, { entries := entries' ++ [(i, newData)]
        next_index := st.next_index + 1
        clock := st.clock + 1 })

/-- Modelled from the spec: `collect_transaction_dependencies(tx)` returns the
residents producing an output that one of `tx`'s inputs references. -/
def Storage.collect_transaction_dependencies (st : Storage) (tx : PoolTx) : List Nat :=
  (st.entries.filter (fun e =>
    e.2.transaction.outputIds.any (fun o => tx.inputKeys.contains o))).map Prod.fst

/-- Ordering used to rank eviction candidates, modelled from the spec:
ascending cumulative tip/gas ratio, ties broken by the later creation instant
first (eviction prefers dropping the newer resident), then by index. -/
def rootBefore (a b : Nat × StorageData) : Bool :=
  let ra := a.2.dependents_cumulative_tip * b.2.dependents_cumulative_gas
  let rb := b.2.dependents_cumulative_tip * a.2.dependents_cumulative_gas
  if ra < rb then true
  else if rb < ra then false
  else if b.2.creation_instant < a.2.creation_instant then true
  else if a.2.creation_instant < b.2.creation_instant then false
  else a.1 ≤ b.1

/-- Insertion sort (structural, so that concrete runs reduce in the kernel). -/
def sortInsert (le : Nat × StorageData → Nat × StorageData → Bool) :
    Nat × StorageData → List (Nat × StorageData) → List (Nat × StorageData)
  | x, [] => [x]
  | x, y :: rest => if le x y then x :: y :: rest else y :: sortInsert le x rest

def sortBy (le : Nat × StorageData → Nat × StorageData → Bool) :
    List (Nat × StorageData) → List (Nat × StorageData)
  | [] => []
  | x :: rest => sortInsert le x (sortBy le rest)

/-- Modelled from the spec: `get_worst_ratio_tip_gas_subtree_roots()` returns
the residents without parents, ordered by ascending cumulative tip/gas
ratio. -/
def Storage.get_worst_ratio_tip_gas_subtree_roots (st : Storage) : List Nat :=
  (sortBy rootBefore (st.entries.filter (fun e => e.2.parents = []))).map Prod.fst

/-- The snapshot of persistent state (`TxPoolPersistentStorage` view): the
existing coin/message/contract ids and the stored blob ids. -/
structure View where
  coins : List Nat
  blobs : List Nat
deriving Repr, DecidableEq

/-- Modelled from the spec: `Storage::validate_inputs` ensures each input
references an entity that exists on chain or in the pool's output projection;
skipped entirely when `utxo_validation` is off. -/
def Storage.validate_inputs (st : Storage) (tx : PoolTx) (view : View)
    (utxo_validation : Bool) : Except Err Unit :=
  if utxo_validation then
    if tx.inputKeys.all (fun k =>
        view.coins.contains k ∨
        st.entries.any (fun e => e.2.transaction.outputIds.contains k)) then
      Except.ok ()
    else Except.error Err.notInsertedInputMissing
  else Except.ok ()

/-- Modelled from the spec: the collision manager's index from input claim to
the resident occupying it. -/
structure CM where
  claims : List (Nat × Nat)
deriving Repr, DecidableEq

/-- Modelled from the spec: `collect_colliding_transactions(tx)` maps each
colliding resident to the list of claims it shares with `tx`. -/
def CM.collect_colliding_transactions (cm : CM) (tx : PoolTx) :
    List (Nat × List Nat) :=
  tx.inputKeys.foldl (fun acc k =>
    match alGet cm.claims k with
    | none => acc
    | some i =>
      match alGet acc i with
      | none => acc ++ [(i, [k])]
      | some ks =>
        acc.map (fun e => if e.1 = i then (e.1, ks ++ [k]) else e)) []

/-- Modelled from the spec: the displacement policy
(`CollisionManager::can_store_transaction`): a transaction with dependencies
may not collide at all; a colliding resident may be displaced only when the
newcomer's tip strictly exceeds the resident's cumulative tip and the
newcomer does not depend on it. -/
def CM.can_store_transaction (_cm : CM) (tx : PoolTx) (has_dependencies : Bool)
    (colliding : List (Nat × List Nat)) (st : Storage) (deps : List Nat) :
    Except Err Unit :=
  if has_dependencies ∧ colliding ≠ [] then Except.error Err.collided
  else if colliding.all (fun c =>
      match st.get c.1 with
      | none => false
      | some d => tx.tip > d.dependents_cumulative_tip ∧ ¬ deps.contains c.1) then
    Except.ok ()
  else Except.error Err.collided

/-- Modelled from the spec: `on_stored_transaction` registers the claims of
the stored transaction. -/
def CM.on_stored_transaction (cm : CM) (tx : PoolTx) (i : Nat) : CM :=
  { claims := tx.inputKeys.foldl (fun l k => alPut l k i) cm.claims }

/-- Modelled from the spec: `on_removed_transaction` frees all claims of the
removed transaction. -/
def CM.on_removed_transaction (cm : CM) (tx : PoolTx) : CM :=
  { claims := tx.inputKeys.foldl (fun l k => alRemove l k) cm.claims }

/-- `pool_limits` from the configuration: the capacity envelope. -/
structure PoolLimits where
  max_gas : Nat
  max_bytes_size : Nat
  max_txs : Nat
deriving Repr, DecidableEq

/-- The configuration fields the embedded code reads. -/
structure Config where
  pool_limits : PoolLimits
  max_block_gas : Nat
  utxo_validation : Bool
  black_list : List Nat
deriving Repr, DecidableEq

/-- The pool state (`Pool`): its components, the `tx_id → storage index` map
and the running totals.  The persistent-storage provider is embedded as a
snapshot together with an availability flag (`latest_view` fails when the
provider does). -/
structure Pool where
  config : Config
  storage : Storage
  collision_manager : CM
  selection_algorithm : SA
  provider_ok : Bool
  view : View
  tx_id_to_storage_id : List (Nat × Nat)
  current_gas : Nat
  current_bytes_size : Nat
deriving Repr, DecidableEq

/-- `AtomicView::latest_view`, wrapped into `Error::Database` on failure. -/
def Pool.latest_view (p : Pool) : Except Err View :=
  if p.provider_ok then Except.ok p.view else Except.error Err.database

/-- Modelled from the spec: `black_list.check_blacklisting`. -/
def Pool.check_blacklisting (p : Pool) (tx : PoolTx) : Except Err Unit :=
  if p.config.black_list.contains tx.txId then Except.error Err.blacklisted
  else Except.ok ()

/-- `Pool::check_blob_does_not_exist`. -/
def check_blob_does_not_exist (tx : PoolTx) (view : View) : Except Err Unit :=
  match tx.blob_id with
  | some b =>
    if view.blobs.contains b then Except.error (Err.notInsertedBlobIdAlreadyTaken)
    else Except.ok ()
  | none => Except.ok ()

/-- The `while` loop at the end of `check_pool_size_available` (lines 275-293
of `pool.rs`): while a limit is still exceeded, take the next worst subtree
root; fail if the list is exhausted or the candidate's cumulative ratio is
strictly greater than the incoming transaction's ratio; otherwise credit the
candidate's aggregates back and record it. -/
def evictWalk (st : Storage) (lim : PoolLimits) (current_ratio : Nat × Nat) :
    List Nat → Nat → Nat → Nat → List Nat → Except Err (List Nat)
  | sorted_txs, gas_left, bytes_left, txs_left, removed =>
    if gas_left > lim.max_gas ∨ bytes_left > lim.max_bytes_size ∨ txs_left > lim.max_txs then
      match sorted_txs with
      | [] => Except.error Err.notInsertedLimitHit
      | storage_id :: rest =>
        match st.get storage_id with
        | none => Except.error Err.transactionNotFound
        | some d =>
          if ratioCmp (d.dependents_cumulative_tip, d.dependents_cumulative_gas)
              current_ratio = Ordering.gt then
            Except.error Err.notInsertedLimitHit
          else
            evictWalk st lim current_ratio rest
              (gas_left - d.dependents_cumulative_gas)
              (bytes_left - d.dependents_cumulative_bytes_size)
              (txs_left - 1)
              (removed ++ [storage_id])
    else Except.ok removed

/-- The colliding-credit loop of `check_pool_size_available` (lines 248-261):
credit each colliding resident's subtree aggregates back and return early as
soon as the limits are satisfied; when the collisions are exhausted, a
transaction with dependencies is refused and an executable one proceeds to
the worst-ratio walk. -/
def collidingCredit (st : Storage) (lim : PoolLimits) (deps : List Nat)
    (current_ratio : Nat × Nat) (roots : List Nat) :
    List (Nat × List Nat) → Nat → Nat → Nat → List Nat → Except Err (List Nat)
  | collided, gas_left, bytes_left, txs_left, removed =>
    match collided with
    | [] =>
      if deps ≠ [] then Except.error Err.notInsertedLimitHit
      else evictWalk st lim current_ratio roots gas_left bytes_left txs_left removed
    | c :: rest =>
      match st.get c.1 with
      | none => Except.error Err.transactionNotFound
      | some d =>
        let gas_left := gas_left - d.dependents_cumulative_gas
        let bytes_left := bytes_left - d.dependents_cumulative_bytes_size
        let txs_left := txs_left - 1
        let removed := removed ++ [c.1]
        if gas_left ≤ lim.max_gas ∧ bytes_left ≤ lim.max_bytes_size ∧
            txs_left ≤ lim.max_txs then
          Except.ok removed
        else collidingCredit st lim deps current_ratio roots rest
               gas_left bytes_left txs_left removed

/-- `Pool::check_pool_size_available`. -/
def Pool.check_pool_size_available (p : Pool) (tx : PoolTx)
    (collided_transactions : List (Nat × List Nat)) (dependencies : List Nat) :
    Except Err (List Nat) :=
  let tx_gas := tx.max_gas
  let bytes_size := tx.metered_bytes_size
  let gas_left := p.current_gas + tx_gas
  let bytes_left := p.current_bytes_size + bytes_size
  let txs_left := p.storage.count + 1
  let lim := p.config.pool_limits
  if gas_left ≤ lim.max_gas ∧ bytes_left ≤ lim.max_bytes_size ∧
      txs_left ≤ lim.max_txs then
    Except.ok []
  else
    collidingCredit p.storage lim dependencies (tx.tip, tx_gas)
      p.storage.get_worst_ratio_tip_gas_subtree_roots
      collided_transactions gas_left bytes_left txs_left []

instance {ε α : Type} [DecidableEq ε] [DecidableEq α] : DecidableEq (Except ε α) := fun
  | Except.error e, Except.error f =>
    if h : e = f then Decidable.isTrue (congrArg Except.error h)
    else Decidable.isFalse (fun c => h (Except.error.inj c))
  | Except.error _, Except.ok _ => Decidable.isFalse (fun h => Except.noConfusion h)
  | Except.ok _, Except.error _ => Decidable.isFalse (fun h => Except.noConfusion h)
  | Except.ok a, Except.ok b =>
    if h : a = b then Decidable.isTrue (congrArg Except.ok h)
    else Decidable.isFalse (fun c => h (Except.ok.inj c))

/-- The outcome of `Pool::insert`: the returned value, the pool state after
the call (the Rust method mutates `self` in place), and — as a ghost trace —
the sequence of indices on which
`remove_transaction_and_dependents_subtree` was invoked. -/
structure InsertOutcome where
  result : Except Err (List PoolTx)
  pool : Pool
  removal_calls : List Nat
deriving Repr, DecidableEq

/-- `Pool::update_components_and_caches_on_removal`. -/
def Pool.update_components_and_caches_on_removal (p : Pool)
    (removed_transactions : List PoolTx) : Pool :=
  removed_transactions.foldl (fun q rtx =>
    { q with
      collision_manager := q.collision_manager.on_removed_transaction rtx
      selection_algorithm := q.selection_algorithm.on_removed_transaction rtx
      tx_id_to_storage_id := alRemove q.tx_id_to_storage_id rtx.txId
      current_gas := q.current_gas - rtx.max_gas
      current_bytes_size := q.current_bytes_size - rtx.metered_bytes_size }) p

/-- The mutating tail of `Pool::insert` (lines 119-143 of `pool.rs`), entered
once every check has passed: remove the subtrees of the eviction set, then of
every colliding resident, store the transaction, update the map and the
running totals, make it executable when it has no dependencies, update the
components for every removed transaction, and register the stored claims. -/
def Pool.insertCommit (p : Pool) (tx : PoolTx)
    (colliding : List (Nat × List Nat)) (dependencies : List Nat)
    (transactions_to_remove : List Nat) : InsertOutcome :=
  let tx_id := tx.txId
  let gas := tx.max_gas
  let bytes_size := tx.metered_bytes_size
  let step1 := transactions_to_remove.foldl
    (fun (acc : List PoolTx × Storage × List Nat) i =>
      let r := acc.2.1.remove_transaction_and_dependents_subtree i
      (acc.1 ++ r.1, r.2, acc.2.2 ++ [i])) ([], p.storage, [])
  let step2 := (colliding.map Prod.fst).foldl
    (fun (acc : List PoolTx × Storage × List Nat) i =>
      let r := acc.2.1.remove_transaction_and_dependents_subtree i
      (acc.1 ++ r.1, r.2, acc.2.2 ++ [i])) step1
  let removed_transactions := step2.1
  let calls := step2.2.2
  let stored := step2.2.1.store_transaction tx dependencies
  let storage_id := stored.1
  let st3 := stored.2
  let sa1 :=
    if dependencies.isEmpty then
      match st3.get storage_id with
      | some d => p.selection_algorithm.new_executable_transaction storage_id d
      | none => p.selection_algorithm
    else p.selection_algorithm
  let p1 : Pool :=
    { p with
      storage := st3
      selection_algorithm := sa1
      tx_id_to_storage_id := alPut p.tx_id_to_storage_id tx_id storage_id
      current_gas := p.current_gas + gas
      current_bytes_size := p.current_bytes_size + bytes_size }
  let p2 := p1.update_components_and_caches_on_removal removed_transactions
  match st3.get storage_id with
  | none => ⟨Except.error Err.transactionNotFound, p2, calls⟩
  | some d =>
    ⟨Except.ok removed_transactions,
     { p2 with collision_manager :=
         p2.collision_manager.on_stored_transaction d.transaction storage_id },
     calls⟩

/-- `Pool::insert`, with the ghost trace of subtree-removal calls.  Every
fallible step up to and including `check_pool_size_available` happens before
the first mutation, exactly as in the source. -/
def Pool.insertFull (p : Pool) (tx : PoolTx) : InsertOutcome :=
  match p.latest_view with
  | Except.error e => ⟨Except.error e, p, []⟩
  | Except.ok view =>
    match p.check_blacklisting tx with
    | Except.error e => ⟨Except.error e, p, []⟩
    | Except.ok _ =>
      match check_blob_does_not_exist tx view with
      | Except.error e => ⟨Except.error e, p, []⟩
      | Except.ok _ =>
        match p.storage.validate_inputs tx view p.config.utxo_validation with
        | Except.error e => ⟨Except.error e, p, []⟩
        | Except.ok _ =>
          let colliding := p.collision_manager.collect_colliding_transactions tx
          let dependencies := p.storage.collect_transaction_dependencies tx
          let has_dependencies := ¬ dependencies.isEmpty
          match p.collision_manager.can_store_transaction tx has_dependencies
              colliding p.storage dependencies with
          | Except.error e => ⟨Except.error e, p, []⟩
          | Except.ok _ =>
            match p.check_pool_size_available tx colliding dependencies with
            | Except.error e => ⟨Except.error e, p, []⟩
            | Except.ok transactions_to_remove =>
              p.insertCommit tx colliding dependencies transactions_to_remove

/-- `Pool::insert` as the caller sees it: the result and the state of the
pool after the call. -/
def Pool.insert (p : Pool) (tx : PoolTx) : Except Err (List PoolTx) × Pool :=
  ((p.insertFull tx).result, (p.insertFull tx).pool)

/-- The per-index body of `extract_transactions_for_block` (lines 192-203 of
`pool.rs`): remove from storage, update the collision manager, the selection
algorithm and the id map; an error stops the iteration (the `collect` over
`Result`), leaving the mutations made so far in place. -/
def Pool.extractGo : Pool → List Nat → List PoolTx → Except Err (List PoolTx) × Pool
  | p, [], acc => (Except.ok acc, p)
  | p, i :: rest, acc =>
    match p.storage.remove_transaction_without_dependencies i with
    | Except.error e => (Except.error e, p)
    | Except.ok (storage_data, st') =>
      let p' : Pool :=
        { p with
          storage := st'
          collision_manager :=
            p.collision_manager.on_removed_transaction storage_data.transaction
          selection_algorithm :=
            p.selection_algorithm.on_removed_transaction storage_data.transaction
          tx_id_to_storage_id :=
            alRemove p.tx_id_to_storage_id storage_data.transaction.txId }
      Pool.extractGo p' rest (acc ++ [storage_data.transaction])

/-- `Pool::extract_transactions_for_block`: gather the best transactions under
the block-gas constraint, then remove each returned index.  The fuel bounds
the selection loop; a `gather_best_txs` panic is surfaced as an error. -/
def Pool.extract_transactions_for_block (p : Pool) (fuel : Nat) :
    Except Err (List PoolTx) × Pool :=
  match gather_best_txs p.storage ⟨p.config.max_block_gas⟩ fuel p.selection_algorithm with
  | none => (Except.error Err.panicDependentMissing, p)
  | some r => Pool.extractGo { p with selection_algorithm := r.2 } r.1 []

/-- `Pool::prune`, exactly as in the source: it returns `Ok(vec![])` and
touches nothing. -/
def Pool.prune (p : Pool) : Except Err (List PoolTx) × Pool :=
  (Except.ok [], p)

/-- Gas attributed to a storage index (`max_gas` of the resident, `0` for a
missing index); used to state the gas bound of `gather_best_txs`. -/
def gasOf (st : Storage) (i : Nat) : Nat :=
  match st.get i with
  | none => 0
  | some d => d.transaction.max_gas

/-- Total `max_gas` of a list of storage indices. -/
def sumGasOf (st : Storage) (l : List Nat) : Nat :=
  l.foldl (fun s i => s + gasOf st i) 0

/-- Direct dependency between residents: `a` directly depends on `b` when `b`
is one of `a`'s parents. -/
def dependsOnStep (st : Storage) (a b : Nat) : Prop :=
  ∃ d, st.get a = some d ∧ b ∈ d.parents

/-- Dependency between residents: the transitive closure of the parent
relation. -/
def DependsOn (st : Storage) : Nat → Nat → Prop :=
  Relation.TransGen (dependsOnStep st)

/-- Invariant of the extraction fold: relative to the original storage and
the list of indices already removed, every still-resident record's original
parents are either still recorded or already removed. -/
def Pres (orig : Storage) (done : List Nat) (st : Storage) : Prop :=
  ∀ x d', st.get x = some d' → ∃ d, orig.get x = some d ∧
    ∀ q ∈ d.parents, q ∈ d'.parents ∨ q ∈ done

/- ------------------------------------------------------------------ -/
/- Theorems.                                                           -/
/- ------------------------------------------------------------------ -/

lemma ratioCmp_lt_iff (a₁ a₂ b₁ b₂ : Nat) :
    ratioCmp (a₁, a₂) (b₁, b₂) = Ordering.lt ↔ a₁ * b₂ < b₁ * a₂ := by
  simp [ratioCmp, Nat.compare_eq_lt]

lemma ratioCmp_eq_iff (a₁ a₂ b₁ b₂ : Nat) :
    ratioCmp (a₁, a₂) (b₁, b₂) = Ordering.eq ↔ a₁ * b₂ = b₁ * a₂ := by
  simp [ratioCmp, Nat.compare_eq_eq]

lemma ratioCmp_gt_iff (a₁ a₂ b₁ b₂ : Nat) :
    ratioCmp (a₁, a₂) (b₁, b₂) = Ordering.gt ↔ b₁ * a₂ < a₁ * b₂ := by
  simp [ratioCmp, Nat.compare_eq_gt]

lemma keyCmp_lt_iff (s o : Key) :
    Key.cmp s o = Ordering.lt ↔
      (s.ratioTip * o.ratioGas < o.ratioTip * s.ratioGas) ∨
      (s.ratioTip * o.ratioGas = o.ratioTip * s.ratioGas ∧
        o.creation_instant < s.creation_instant) ∨
      (s.ratioTip * o.ratioGas = o.ratioTip * s.ratioGas ∧
        s.creation_instant = o.creation_instant ∧ s.txId < o.txId) := by
  simp only [Key.cmp]
  rcases h : ratioCmp (s.ratioTip, s.ratioGas) (o.ratioTip, o.ratioGas) with _ | _ | _
  · rw [ratioCmp_lt_iff] at h
    rw [if_neg (by decide : ¬ (Ordering.lt = Ordering.eq))]
    exact iff_of_true rfl (Or.inl h)
  · rw [ratioCmp_eq_iff] at h
    rw [if_pos rfl]
    rcases hc : compare o.creation_instant s.creation_instant with _ | _ | _
    · rw [Nat.compare_eq_lt] at hc
      rw [if_neg (by decide : ¬ (Ordering.lt = Ordering.eq))]
      exact iff_of_true rfl (Or.inr (Or.inl ⟨h, hc⟩))
    · rw [Nat.compare_eq_eq] at hc
      rw [if_pos rfl, Nat.compare_eq_lt]
      constructor
      · intro ht; exact Or.inr (Or.inr ⟨h, hc.symm, ht⟩)
      · rintro (hr | ⟨_, hi⟩ | ⟨_, _, ht⟩)
        · exact absurd h (Nat.ne_of_lt hr)
        · omega
        · exact ht
    · rw [Nat.compare_eq_gt] at hc
      rw [if_neg (by decide : ¬ (Ordering.gt = Ordering.eq))]
      constructor
      · intro c; exact absurd c (by decide)
      · rintro (hr | ⟨_, hi⟩ | ⟨_, hi, _⟩)
        · exact absurd h (Nat.ne_of_lt hr)
        · omega
        · omega
  · rw [ratioCmp_gt_iff] at h
    rw [if_neg (by decide : ¬ (Ordering.gt = Ordering.eq))]
    constructor
    · intro c; exact absurd c (by decide)
    · rintro (hr | ⟨he, _⟩ | ⟨he, _, _⟩) <;> omega

lemma keyCmp_eq_iff (s o : Key) :
    Key.cmp s o = Ordering.eq ↔
      s.ratioTip * o.ratioGas = o.ratioTip * s.ratioGas ∧
      s.creation_instant = o.creation_instant ∧ s.txId = o.txId := by
  simp only [Key.cmp]
  rcases h : ratioCmp (s.ratioTip, s.ratioGas) (o.ratioTip, o.ratioGas) with _ | _ | _
  · rw [ratioCmp_lt_iff] at h
    rw [if_neg (by decide : ¬ (Ordering.lt = Ordering.eq))]
    constructor
    · intro c; exact absurd c (by decide)
    · rintro ⟨he, _⟩; exact absurd he (Nat.ne_of_lt h)
  · rw [ratioCmp_eq_iff] at h
    rw [if_pos rfl]
    rcases hc : compare o.creation_instant s.creation_instant with _ | _ | _
    · rw [Nat.compare_eq_lt] at hc
      rw [if_neg (by decide : ¬ (Ordering.lt = Ordering.eq))]
      constructor
      · intro c; exact absurd c (by decide)
      · rintro ⟨_, hi, _⟩; omega
    · rw [Nat.compare_eq_eq] at hc
      rw [if_pos rfl, Nat.compare_eq_eq]
      constructor
      · intro ht; exact ⟨h, hc.symm, ht⟩
      · rintro ⟨_, _, ht⟩; exact ht
    · rw [Nat.compare_eq_gt] at hc
      rw [if_neg (by decide : ¬ (Ordering.gt = Ordering.eq))]
      constructor
      · intro c; exact absurd c (by decide)
      · rintro ⟨_, hi, _⟩; omega
  · rw [ratioCmp_gt_iff] at h
    rw [if_neg (by decide : ¬ (Ordering.gt = Ordering.eq))]
    constructor
    · intro c; exact absurd c (by decide)
    · rintro ⟨he, _⟩; exact absurd he.symm (Nat.ne_of_lt h)

lemma keyCmp_gt_iff (s o : Key) :
    Key.cmp s o = Ordering.gt ↔
      (o.ratioTip * s.ratioGas < s.ratioTip * o.ratioGas) ∨
      (s.ratioTip * o.ratioGas = o.ratioTip * s.ratioGas ∧
        s.creation_instant < o.creation_instant) ∨
      (s.ratioTip * o.ratioGas = o.ratioTip * s.ratioGas ∧
        s.creation_instant = o.creation_instant ∧ o.txId < s.txId) := by
  simp only [Key.cmp]
  rcases h : ratioCmp (s.ratioTip, s.ratioGas) (o.ratioTip, o.ratioGas) with _ | _ | _
  · rw [ratioCmp_lt_iff] at h
    rw [if_neg (by decide : ¬ (Ordering.lt = Ordering.eq))]
    constructor
    · intro c; exact absurd c (by decide)
    · rintro (hr | ⟨he, _⟩ | ⟨he, _, _⟩) <;> omega
  · rw [ratioCmp_eq_iff] at h
    rw [if_pos rfl]
    rcases hc : compare o.creation_instant s.creation_instant with _ | _ | _
    · rw [Nat.compare_eq_lt] at hc
      rw [if_neg (by decide : ¬ (Ordering.lt = Ordering.eq))]
      constructor
      · intro c; exact absurd c (by decide)
      · rintro (hr | ⟨_, hi⟩ | ⟨_, hi, _⟩)
        · exfalso; omega
        · omega
        · omega
    · rw [Nat.compare_eq_eq] at hc
      rw [if_pos rfl, Nat.compare_eq_gt]
      constructor
      · intro ht; exact Or.inr (Or.inr ⟨h, hc.symm, ht⟩)
      · rintro (hr | ⟨_, hi⟩ | ⟨_, _, ht⟩)
        · exfalso; omega
        · omega
        · exact ht
    · rw [Nat.compare_eq_gt] at hc
      rw [if_neg (by decide : ¬ (Ordering.gt = Ordering.eq))]
      exact iff_of_true rfl (Or.inr (Or.inl ⟨h, hc⟩))
  · rw [ratioCmp_gt_iff] at h
    rw [if_neg (by decide : ¬ (Ordering.gt = Ordering.eq))]
    exact iff_of_true rfl (Or.inl h)

lemma crossLt_trans {t₁ g₁ t₂ g₂ t₃ g₃ : Nat} (hg1 : 0 < g₁) (hg3 : 0 < g₃)
    (h1 : t₁ * g₂ < t₂ * g₁) (h2 : t₂ * g₃ < t₃ * g₂) : t₁ * g₃ < t₃ * g₁ := by
  have A : t₁ * g₂ * g₃ < t₂ * g₁ * g₃ := mul_lt_mul_of_pos_right h1 hg3
  have B : t₂ * g₃ * g₁ < t₃ * g₂ * g₁ := mul_lt_mul_of_pos_right h2 hg1
  have C : t₁ * g₃ * g₂ < t₃ * g₁ * g₂ := by
    calc t₁ * g₃ * g₂ = t₁ * g₂ * g₃ := by ring
      _ < t₂ * g₁ * g₃ := A
      _ = t₂ * g₃ * g₁ := by ring
      _ < t₃ * g₂ * g₁ := B
      _ = t₃ * g₁ * g₂ := by ring
  exact lt_of_mul_lt_mul_right C (Nat.zero_le g₂)

lemma crossEqLt_trans {t₁ g₁ t₂ g₂ t₃ g₃ : Nat} (hg1 : 0 < g₁)
    (h1 : t₁ * g₂ = t₂ * g₁) (h2 : t₂ * g₃ < t₃ * g₂) : t₁ * g₃ < t₃ * g₁ := by
  have B : t₂ * g₃ * g₁ < t₃ * g₂ * g₁ := mul_lt_mul_of_pos_right h2 hg1
  have C : t₁ * g₃ * g₂ < t₃ * g₁ * g₂ := by
    calc t₁ * g₃ * g₂ = t₁ * g₂ * g₃ := by ring
      _ = t₂ * g₁ * g₃ := by rw [h1]
      _ = t₂ * g₃ * g₁ := by ring
      _ < t₃ * g₂ * g₁ := B
      _ = t₃ * g₁ * g₂ := by ring
  exact lt_of_mul_lt_mul_right C (Nat.zero_le g₂)

lemma crossLtEq_trans {t₁ g₁ t₂ g₂ t₃ g₃ : Nat} (hg3 : 0 < g₃)
    (h1 : t₁ * g₂ < t₂ * g₁) (h2 : t₂ * g₃ = t₃ * g₂) : t₁ * g₃ < t₃ * g₁ := by
  have A : t₁ * g₂ * g₃ < t₂ * g₁ * g₃ := mul_lt_mul_of_pos_right h1 hg3
  have C : t₁ * g₃ * g₂ < t₃ * g₁ * g₂ := by
    calc t₁ * g₃ * g₂ = t₁ * g₂ * g₃ := by ring
      _ < t₂ * g₁ * g₃ := A
      _ = t₂ * g₃ * g₁ := by ring
      _ = t₃ * g₂ * g₁ := by rw [h2]
      _ = t₃ * g₁ * g₂ := by ring
  exact lt_of_mul_lt_mul_right C (Nat.zero_le g₂)

lemma crossEq_trans {t₁ g₁ t₂ g₂ t₃ g₃ : Nat} (hg2 : 0 < g₂)
    (h1 : t₁ * g₂ = t₂ * g₁) (h2 : t₂ * g₃ = t₃ * g₂) : t₁ * g₃ = t₃ * g₁ := by
  have C : t₁ * g₃ * g₂ = t₃ * g₁ * g₂ := by
    calc t₁ * g₃ * g₂ = t₁ * g₂ * g₃ := by ring
      _ = t₂ * g₁ * g₃ := by rw [h1]
      _ = t₂ * g₃ * g₁ := by ring
      _ = t₃ * g₂ * g₁ := by rw [h2]
      _ = t₃ * g₁ * g₂ := by ring
  exact Nat.eq_of_mul_eq_mul_right hg2 C

lemma iterBefore_trans {a b c : Key} (ha : 0 < a.ratioGas) (hb : 0 < b.ratioGas)
    (hc : 0 < c.ratioGas) (hab : iterBefore a b) (hbc : iterBefore b c) :
    iterBefore a c := by
  unfold iterBefore at *
  rw [keyCmp_lt_iff] at hab hbc ⊢
  rcases hab with h1 | ⟨h1, hi1⟩ | ⟨h1, hi1, ht1⟩ <;>
    rcases hbc with h2 | ⟨h2, hi2⟩ | ⟨h2, hi2, ht2⟩
  · exact Or.inl (crossLt_trans hc ha h2 h1)
  · exact Or.inl (crossEqLt_trans hc h2 h1)
  · exact Or.inl (crossEqLt_trans hc h2 h1)
  · exact Or.inl (crossLtEq_trans ha h2 h1)
  · exact Or.inr (Or.inl ⟨crossEq_trans hb h2 h1, by omega⟩)
  · exact Or.inr (Or.inl ⟨crossEq_trans hb h2 h1, by omega⟩)
  · exact Or.inl (crossLtEq_trans ha h2 h1)
  · exact Or.inr (Or.inl ⟨crossEq_trans hb h2 h1, by omega⟩)
  · exact Or.inr (Or.inr ⟨crossEq_trans hb h2 h1, by omega, by omega⟩)

lemma iterBefore_asymm {a b : Key} (hab : iterBefore a b) : ¬ iterBefore b a := by
  unfold iterBefore at *
  rw [keyCmp_lt_iff] at hab ⊢
  rcases hab with h1 | ⟨h1, hi1⟩ | ⟨h1, hi1, ht1⟩ <;>
    rintro (h2 | ⟨h2, hi2⟩ | ⟨h2, hi2, ht2⟩) <;> omega

lemma iterBefore_total (a b : Key) :
    iterBefore a b ∨ iterBefore b a ∨ Key.cmp a b = Ordering.eq := by
  rcases h : Key.cmp a b with _ | _ | _
  · exact Or.inr (Or.inl h)
  · exact Or.inr (Or.inr rfl)
  · rw [keyCmp_gt_iff] at h
    rw [iterBefore, keyCmp_lt_iff]
    exact Or.inl (by tauto)

/-- C4, counterexample.  The claim states that on equal ratio and equal
creation instant the iteration order of the selection structure visits
transaction ids in ascending order.  In fact the key with the larger id is
visited first: with equal ratio `1/1` and equal instant `0`, the key with
id `5` iterates before the key with id `3`. -/
theorem C4_counterexample :
    iterBefore ⟨1, 1, 0, 5⟩ ⟨1, 1, 0, 3⟩ ∧ ¬ iterBefore ⟨1, 1, 0, 3⟩ ⟨1, 1, 0, 5⟩ ∧
      (3 : Nat) < 5 := by
  decide

/-- C4, amended.  The effective iteration order of the selection structure
(`BTreeMap<Reverse<Key>, _>` under `Key::cmp`) is: tip/gas ratio descending
(compared exactly by cross-multiplication); on equal ratio, creation instant
ascending (older first); on equal ratio and instant, transaction id
*descending*; and on keys with positive gas this order is transitive,
asymmetric, and total up to `cmp`-equality. -/
theorem C4_theorem (a b c : Key) (ha : 0 < a.ratioGas) (hb : 0 < b.ratioGas)
    (hc : 0 < c.ratioGas) :
    (iterBefore a b ↔
      (b.ratioTip * a.ratioGas < a.ratioTip * b.ratioGas) ∨
      (b.ratioTip * a.ratioGas = a.ratioTip * b.ratioGas ∧
        a.creation_instant < b.creation_instant) ∨
      (b.ratioTip * a.ratioGas = a.ratioTip * b.ratioGas ∧
        b.creation_instant = a.creation_instant ∧ b.txId < a.txId)) ∧
    (iterBefore a b → iterBefore b c → iterBefore a c) ∧
    (iterBefore a b → ¬ iterBefore b a) ∧
    (iterBefore a b ∨ iterBefore b a ∨ Key.cmp a b = Ordering.eq) := by
  refine ⟨keyCmp_lt_iff b a, ?_, ?_, iterBefore_total a b⟩
  · exact fun h1 h2 => iterBefore_trans ha hb hc h1 h2
  · exact fun h => iterBefore_asymm h

/-- C4, witness: the amended theorem applied at concrete keys with positive
gas. -/
theorem C4_witness :
    iterBefore ⟨2, 1, 0, 0⟩ ⟨1, 1, 1, 4⟩ ∨ iterBefore ⟨1, 1, 1, 4⟩ ⟨2, 1, 0, 0⟩ ∨
      Key.cmp ⟨2, 1, 0, 0⟩ ⟨1, 1, 1, 4⟩ = Ordering.eq :=
  (C4_theorem ⟨2, 1, 0, 0⟩ ⟨1, 1, 1, 4⟩ ⟨1, 2, 5, 9⟩ (by decide) (by decide)
    (by decide)).2.2.2

lemma alGet_eq_none_iff {α : Type} (l : List (Nat × α)) (k : Nat) :
    alGet l k = none ↔ ∀ e ∈ l, e.1 ≠ k := by
  induction l with
  | nil => simp [alGet]
  | cons e rest ih =>
    rcases e with ⟨k', v⟩
    by_cases h : k' = k
    · subst h
      simp [alGet]
    · simp [alGet, h, ih]

lemma alRemove_of_get_none {α : Type} (l : List (Nat × α)) (k : Nat)
    (h : alGet l k = none) : alRemove l k = l := by
  rw [alGet_eq_none_iff] at h
  unfold alRemove
  apply List.filter_eq_self.mpr
  intro e he
  simpa using h e he

lemma alGet_alRemove_self {α : Type} (l : List (Nat × α)) (k : Nat) :
    alGet (alRemove l k) k = none := by
  rw [alGet_eq_none_iff]
  intro e he
  have := List.of_mem_filter he
  simpa using this

/-- C10, confirmed.  Removal from the selection structure is idempotent and
total: when a transaction's id is not tracked by
`tx_id_to_creation_instant`, `on_removed_transaction` is a no-op (and cannot
fail, being a total function); consequently removing the same transaction
twice has the same effect as removing it once. -/
lemma on_removed_untracked (sa : SA) (tx : PoolTx)
    (h : alGet sa.instants tx.txId = none) : sa.on_removed_transaction tx = sa := by
  unfold SA.on_removed_transaction SA.on_removed_transaction_inner
  rw [h, alRemove_of_get_none sa.instants tx.txId h]

lemma on_removed_instants_none (sa : SA) (tx : PoolTx) :
    alGet (sa.on_removed_transaction tx).instants tx.txId = none := by
  unfold SA.on_removed_transaction SA.on_removed_transaction_inner
  rcases h : alGet sa.instants tx.txId with _ | inst
  · exact alGet_alRemove_self sa.instants tx.txId
  · exact alGet_alRemove_self sa.instants tx.txId

theorem C10_theorem (sa : SA) (tx : PoolTx) :
    (alGet sa.instants tx.txId = none → sa.on_removed_transaction tx = sa) ∧
    (sa.on_removed_transaction tx).on_removed_transaction tx =
      sa.on_removed_transaction tx := by
  refine ⟨on_removed_untracked sa tx, ?_⟩
  exact on_removed_untracked (sa.on_removed_transaction tx) tx
    (on_removed_instants_none sa tx)

/-- C10, witness: the theorem applied to a concrete structure whose instants
map does not track the transaction's id. -/
theorem C10_witness :
    (alGet (SA.mk [] []).instants 7 = none →
      (SA.mk [] []).on_removed_transaction ⟨7, 1, 1, 1, [], [], none⟩ = SA.mk [] []) ∧
    ((SA.mk [] []).on_removed_transaction
        ⟨7, 1, 1, 1, [], [], none⟩).on_removed_transaction ⟨7, 1, 1, 1, [], [], none⟩ =
      (SA.mk [] []).on_removed_transaction ⟨7, 1, 1, 1, [], [], none⟩ :=
  C10_theorem (SA.mk [] []) ⟨7, 1, 1, 1, [], [], none⟩

/-- C8, counterexample.  The claim states that `prune` removes every resident
whose creation instant is older than the ttl and returns the removed
transactions.  The source's `prune` is `Ok(vec![])`: on a pool holding a
resident created at instant `0` (older than any configured ttl, the clock
standing at `1000`), it returns the empty list and leaves the pool — and the
resident — untouched. -/
theorem C8_counterexample :
    (Pool.prune
        ⟨⟨⟨100, 100, 10⟩, 50, false, []⟩,
         ⟨[(0, ⟨⟨1, 5, 5, 1, [], [], none⟩, 0, [], [], 5, 1, 5⟩)], 1, 1000⟩,
         ⟨[]⟩, ⟨[(⟨5, 5, 0, 1⟩, 0)], [(1, 0)]⟩, true, ⟨[], []⟩, [(1, 0)], 5, 1⟩).1 =
      Except.ok [] ∧
    (Pool.prune
        ⟨⟨⟨100, 100, 10⟩, 50, false, []⟩,
         ⟨[(0, ⟨⟨1, 5, 5, 1, [], [], none⟩, 0, [], [], 5, 1, 5⟩)], 1, 1000⟩,
         ⟨[]⟩, ⟨[(⟨5, 5, 0, 1⟩, 0)], [(1, 0)]⟩, true, ⟨[], []⟩, [(1, 0)], 5, 1⟩).2 =
      ⟨⟨⟨100, 100, 10⟩, 50, false, []⟩,
       ⟨[(0, ⟨⟨1, 5, 5, 1, [], [], none⟩, 0, [], [], 5, 1, 5⟩)], 1, 1000⟩,
       ⟨[]⟩, ⟨[(⟨5, 5, 0, 1⟩, 0)], [(1, 0)]⟩, true, ⟨[], []⟩, [(1, 0)], 5, 1⟩ ∧
    (⟨[(0, ⟨⟨1, 5, 5, 1, [], [], none⟩, 0, [], [], 5, 1, 5⟩)], 1, 1000⟩ :
        Storage).entries ≠ [] := by
  decide

/-- C8, amended.  `Pool::prune` removes nothing and returns the empty list,
whatever the pool state and whatever ttl is configured: the source body is
`Ok(vec![])`. -/
theorem C8_theorem (p : Pool) : p.prune = (Except.ok [], p) := rfl

/-- C9, confirmed.  `extract_transactions_for_block` is deterministic: two
calls starting from pools whose every component (configuration, storage with
its creation instants, collision manager, selection structure, snapshot,
id map, counters) is equal return equal transaction sequences.  The
embedding is a pure function: the source iterates only deterministic
structures (a `BTreeMap` in key order) under the same fuel. -/
theorem C9_theorem (p₁ p₂ : Pool) (fuel : Nat)
    (hcfg : p₁.config = p₂.config)
    (hst : p₁.storage = p₂.storage)
    (hcm : p₁.collision_manager = p₂.collision_manager)
    (hsa : p₁.selection_algorithm = p₂.selection_algorithm)
    (hprov : p₁.provider_ok = p₂.provider_ok)
    (hview : p₁.view = p₂.view)
    (hmap : p₁.tx_id_to_storage_id = p₂.tx_id_to_storage_id)
    (hgas : p₁.current_gas = p₂.current_gas)
    (hbytes : p₁.current_bytes_size = p₂.current_bytes_size) :
    (p₁.extract_transactions_for_block fuel).1 =
      (p₂.extract_transactions_for_block fuel).1 := by
  have h : p₁ = p₂ := by
    cases p₁; cases p₂; simp_all
  rw [h]

/-- C9, witness: the theorem applied to a concrete pool and itself. -/
theorem C9_witness :
    ((⟨⟨⟨100, 100, 10⟩, 50, false, []⟩, ⟨[], 0, 0⟩, ⟨[]⟩, ⟨[], []⟩, true, ⟨[], []⟩,
        [], 0, 0⟩ : Pool).extract_transactions_for_block 3).1 =
      ((⟨⟨⟨100, 100, 10⟩, 50, false, []⟩, ⟨[], 0, 0⟩, ⟨[]⟩, ⟨[], []⟩, true, ⟨[], []⟩,
        [], 0, 0⟩ : Pool).extract_transactions_for_block 3).1 :=
  C9_theorem _ _ 3 rfl rfl rfl rfl rfl rfl rfl rfl rfl

lemma evictWalk_mem (st : Storage) (lim : PoolLimits) (r₁ r₂ : Nat) :
    ∀ (sorted : List Nat) (gas bytes txs : Nat) (removed l : List Nat),
      (∀ i ∈ removed, ∃ d, st.get i = some d ∧
        d.dependents_cumulative_tip * r₂ ≤ r₁ * d.dependents_cumulative_gas) →
      evictWalk st lim (r₁, r₂) sorted gas bytes txs removed = Except.ok l →
      ∀ i ∈ l, ∃ d, st.get i = some d ∧
        d.dependents_cumulative_tip * r₂ ≤ r₁ * d.dependents_cumulative_gas := by
  intro sorted
  induction sorted with
  | nil =>
    intro gas bytes txs removed l hrem h
    rw [evictWalk] at h
    split at h
    · exact absurd h (by simp)
    · cases h
      exact hrem
  | cons sid rest ih =>
    intro gas bytes txs removed l hrem h
    rw [evictWalk] at h
    split at h
    · rcases hget : st.get sid with _ | d
      · rw [hget] at h
        exact absurd h (by simp)
      · rw [hget] at h
        dsimp only at h
        by_cases hcmp : ratioCmp (d.dependents_cumulative_tip, d.dependents_cumulative_gas)
            (r₁, r₂) = Ordering.gt
        · rw [if_pos hcmp] at h
          exact absurd h (by simp)
        · rw [if_neg hcmp] at h
          refine ih _ _ _ _ _ ?_ h
          intro i hi
          rcases List.mem_append.mp hi with hi | hi
          · exact hrem i hi
          · rcases List.mem_singleton.mp hi with rfl
            refine ⟨d, hget, ?_⟩
            rw [ratioCmp_gt_iff] at hcmp
            exact Nat.le_of_not_lt hcmp
    · cases h
      exact hrem

/-- C1, counterexample.  The claim states that during the capacity check for
an executable (dependency-free) transaction a subtree root is evicted only
when its cumulative tip/gas ratio is *strictly* less than the candidate's,
and that an equal-ratio root is never evicted.  In the source the walk
rejects only when `ratio > current_ratio`, so an equal-ratio root *is*
evicted: the pool below holds one root with cumulative ratio `10/10` and the
candidate has ratio `1/1` (equal as rationals), yet the check returns the
root as the eviction set. -/
theorem C1_counterexample :
    (Pool.check_pool_size_available
        ⟨⟨⟨10, 100, 10⟩, 50, false, []⟩,
         ⟨[(0, ⟨⟨9, 10, 10, 1, [], [], none⟩, 0, [], [], 10, 1, 10⟩)], 1, 1⟩,
         ⟨[]⟩, ⟨[(⟨10, 10, 0, 9⟩, 0)], [(9, 0)]⟩, true, ⟨[], []⟩, [(9, 0)], 10, 1⟩
        ⟨8, 1, 1, 1, [], [], none⟩ [] []) = Except.ok [0] ∧
    (10 : Nat) * 1 = 1 * 10 := by
  constructor
  · rfl
  · rfl

/-- C1, amended.  For an executable (dependency-free, non-colliding)
transaction, every subtree root the capacity check returns for eviction has
cumulative tip/gas ratio *at most* the candidate's ratio (exact
cross-multiplied comparison); a root with strictly greater ratio is never
evicted, but an equal-ratio root may be. -/
theorem C1_theorem (p : Pool) (tx : PoolTx) (l : List Nat)
    (h : p.check_pool_size_available tx [] [] = Except.ok l) :
    ∀ i ∈ l, ∃ d, p.storage.get i = some d ∧
      d.dependents_cumulative_tip * tx.max_gas ≤
        tx.tip * d.dependents_cumulative_gas := by
  rw [Pool.check_pool_size_available] at h
  split at h
  · cases h
    intro i hi
    exact absurd hi (by simp)
  · rw [collidingCredit] at h
    rw [if_neg (by simp)] at h
    exact evictWalk_mem p.storage p.config.pool_limits tx.tip tx.max_gas _ _ _ _ _ _
      (by intro i hi; exact absurd hi (by simp)) h

/-- C1, witness: the amended theorem applied to the concrete pool of the
counterexample, where the check succeeds with eviction set `[0]`. -/
theorem C1_witness :
    ∃ d,
      (⟨⟨⟨10, 100, 10⟩, 50, false, []⟩,
        ⟨[(0, ⟨⟨9, 10, 10, 1, [], [], none⟩, 0, [], [], 10, 1, 10⟩)], 1, 1⟩,
        ⟨[]⟩, ⟨[(⟨10, 10, 0, 9⟩, 0)], [(9, 0)]⟩, true, ⟨[], []⟩, [(9, 0)], 10, 1⟩ :
          Pool).storage.get 0 = some d ∧
      d.dependents_cumulative_tip * 1 ≤ 1 * d.dependents_cumulative_gas :=
  C1_theorem _ ⟨8, 1, 1, 1, [], [], none⟩ [0] (by rfl) 0 (by decide)

lemma scanStep_promote_inv (st : Storage) (acc : ScanAcc) (e : Key × Nat)
    (hinv : acc.to_promote = acc.best.flatMap (fun b => st.childrenOf b.2)) :
    (scanStep st acc e).to_promote =
      (scanStep st acc e).best.flatMap (fun b => st.childrenOf b.2) := by
  rw [scanStep]
  rcases hget : st.get e.2 with _ | d
  · simpa using hinv
  · dsimp only
    by_cases hgas : d.transaction.max_gas > acc.gas_left
    · rw [if_pos hgas]
      exact hinv
    · rw [if_neg hgas]
      dsimp only
      rw [List.flatMap_append, hinv]
      simp [Storage.childrenOf, hget]

lemma scanList_promote_aux (st : Storage) (entries : List (Key × Nat)) :
    ∀ acc : ScanAcc,
      acc.to_promote = acc.best.flatMap (fun b => st.childrenOf b.2) →
      (entries.foldl (scanStep st) acc).to_promote =
        (entries.foldl (scanStep st) acc).best.flatMap (fun b => st.childrenOf b.2) := by
  induction entries with
  | nil => intro acc hinv; exact hinv
  | cons e rest ih =>
    intro acc hinv
    exact ih (scanStep st acc e) (scanStep_promote_inv st acc e hinv)

lemma promoteAll_resident (st : Storage) :
    ∀ (ps : List Nat) (sa sa' : SA), promoteAll st sa ps = some sa' →
      ∀ p ∈ ps, ∃ d, st.get p = some d := by
  intro ps
  induction ps with
  | nil => intro sa sa' _ p hp; exact absurd hp (by simp)
  | cons q rest ih =>
    intro sa sa' h p hp
    rw [promoteAll] at h
    rcases hget : st.get q with _ | d
    · rw [hget] at h
      exact absurd h (by simp)
    · rw [hget] at h
      rcases List.mem_cons.mp hp with rfl | hp
      · exact ⟨d, hget⟩
      · exact ih _ _ h p hp

/-- C2, counterexample.  The claim states that a direct child of a selected
transaction is promoted only when all of its parents are selected in the
pass or absent from storage.  In the run below, transaction `3` has parents
`1` and `2`; the pass selects `1` (gas 5 fits the budget 10) and skips `2`
(gas 100 exceeds it), yet `3` is promoted into the structure — and even
selected in the next pass — while its parent `2` is still resident and never
selected. -/
theorem C2_counterexample :
    gather_best_txs
        ⟨[(1, ⟨⟨1, 50, 5, 1, [], [], none⟩, 0, [], [3], 9, 2, 90⟩),
          (2, ⟨⟨2, 100, 100, 1, [], [], none⟩, 0, [], [3], 104, 2, 140⟩),
          (3, ⟨⟨3, 40, 4, 1, [], [], none⟩, 2, [1, 2], [], 4, 1, 40⟩)], 4, 3⟩
        ⟨10⟩ 5
        ⟨[(⟨50, 5, 0, 1⟩, 1), (⟨100, 100, 0, 2⟩, 2)], [(1, 0), (2, 0)]⟩ =
      some ([1, 3], ⟨[(⟨100, 100, 0, 2⟩, 2)], [(2, 0)]⟩) ∧
    (⟨[(1, ⟨⟨1, 50, 5, 1, [], [], none⟩, 0, [], [3], 9, 2, 90⟩),
       (2, ⟨⟨2, 100, 100, 1, [], [], none⟩, 0, [], [3], 104, 2, 140⟩),
       (3, ⟨⟨3, 40, 4, 1, [], [], none⟩, 2, [1, 2], [], 4, 1, 40⟩)], 4, 3⟩ :
        Storage).parentsOf 3 = [1, 2] ∧
    ((⟨[(1, ⟨⟨1, 50, 5, 1, [], [], none⟩, 0, [], [3], 9, 2, 90⟩),
        (2, ⟨⟨2, 100, 100, 1, [], [], none⟩, 0, [], [3], 104, 2, 140⟩),
        (3, ⟨⟨3, 40, 4, 1, [], [], none⟩, 2, [1, 2], [], 4, 1, 40⟩)], 4, 3⟩ :
         Storage).get 2).isSome = true ∧
    ¬ (2 ∈ [1, 3]) := by
  refine ⟨?_, rfl, rfl, by decide⟩
  rfl

/-- C2, amended.  During a pass of `gather_best_txs` the set of indices
marked for promotion is exactly the concatenation of the direct children (in
storage) of the selected entries — no condition on the children's remaining
parents is checked — and the promotion step then requires every such child
to still be resident (a missing one is a panic) and inserts it into the
priority structure unconditionally. -/
theorem C2_theorem :
    (∀ (st : Storage) (entries : List (Key × Nat)) (g : Nat),
      (scanList st entries g).to_promote =
        (scanList st entries g).best.flatMap (fun b => st.childrenOf b.2)) ∧
    (∀ (st : Storage) (ps : List Nat) (sa sa' : SA),
      promoteAll st sa ps = some sa' → ∀ p ∈ ps, ∃ d, st.get p = some d) := by
  constructor
  · intro st entries g
    exact scanList_promote_aux st entries ⟨g, [], [], []⟩ rfl
  · intro st ps sa sa' h
    exact promoteAll_resident st ps sa sa' h

/-- C2, witness: the amended theorem applied to the counterexample's
promotion step, where index `3` is promoted and is indeed resident. -/
theorem C2_witness :
    ∃ d,
      (⟨[(1, ⟨⟨1, 50, 5, 1, [], [], none⟩, 0, [], [3], 9, 2, 90⟩),
         (2, ⟨⟨2, 100, 100, 1, [], [], none⟩, 0, [], [3], 104, 2, 140⟩),
         (3, ⟨⟨3, 40, 4, 1, [], [], none⟩, 2, [1, 2], [], 4, 1, 40⟩)], 4, 3⟩ :
          Storage).get 3 = some d :=
  C2_theorem.2 _ [3] ⟨[(⟨100, 100, 0, 2⟩, 2)], [(2, 0)]⟩
    ⟨[(⟨40, 4, 2, 3⟩, 3), (⟨100, 100, 0, 2⟩, 2)], [(2, 0), (3, 2)]⟩ (by rfl)
    3 (by decide)

lemma removeFold_calls (l : List Nat) :
    ∀ acc : List PoolTx × Storage × List Nat,
      (l.foldl (fun acc i =>
        let r := acc.2.1.remove_transaction_and_dependents_subtree i
        (acc.1 ++ r.1, r.2, acc.2.2 ++ [i])) acc).2.2 = acc.2.2 ++ l := by
  induction l with
  | nil => intro acc; simp
  | cons i rest ih =>
    intro acc
    rw [List.foldl_cons, ih]
    simp

lemma insertCommit_calls (p : Pool) (tx : PoolTx) (colliding : List (Nat × List Nat))
    (deps evict : List Nat) :
    (p.insertCommit tx colliding deps evict).removal_calls =
      evict ++ colliding.map Prod.fst := by
  rw [Pool.insertCommit]
  dsimp only
  rw [removeFold_calls, removeFold_calls]
  simp only [List.nil_append]
  split <;> rfl

lemma alGet_append_self {α : Type} (l : List (Nat × α)) (i : Nat) (v : α) :
    ∃ d, alGet (l ++ [(i, v)]) i = some d := by
  induction l with
  | nil => exact ⟨v, by simp [alGet]⟩
  | cons e rest ih =>
    rcases e with ⟨k', v'⟩
    by_cases h : k' = i
    · exact ⟨v', by simp [alGet, h]⟩
    · rcases ih with ⟨d, hd⟩
      exact ⟨d, by simpa [alGet, h] using hd⟩

lemma store_transaction_get_self (st : Storage) (tx : PoolTx) (deps : List Nat) :
    ∃ d, (st.store_transaction tx deps).2.get (st.store_transaction tx deps).1 = some d := by
  rw [Storage.store_transaction]
  dsimp only [Storage.get]
  exact alGet_append_self _ st.next_index _

lemma insertCommit_ok (p : Pool) (tx : PoolTx) (colliding : List (Nat × List Nat))
    (deps evict : List Nat) :
    ∃ out, (p.insertCommit tx colliding deps evict).result = Except.ok out := by
  rw [Pool.insertCommit]
  dsimp only
  rcases hget : Storage.get _ _ with _ | d
  · rcases store_transaction_get_self
        ((colliding.map Prod.fst).foldl (fun acc i =>
          let r := acc.2.1.remove_transaction_and_dependents_subtree i
          (acc.1 ++ r.1, r.2, acc.2.2 ++ [i]))
          (evict.foldl (fun acc i =>
            let r := acc.2.1.remove_transaction_and_dependents_subtree i
            (acc.1 ++ r.1, r.2, acc.2.2 ++ [i])) ([], p.storage, []))).2.1 tx deps
      with ⟨d, hd⟩
    rw [hget] at hd
    exact absurd hd (by simp)
  · exact ⟨_, rfl⟩

/-- C7, counterexample.  The claim states that in a successful insert the
subtree-removal is invoked for every member of the eviction set and then
*only* for colliding residents not already in that set, so that no
resident's subtree is removed twice.  In the pool below (capacity one
transaction) the colliding resident `0` is itself the eviction set returned
by the capacity check, and the insert invokes
`remove_transaction_and_dependents_subtree` on index `0` twice: once from
the eviction loop and once from the collision loop. -/
theorem C7_counterexample :
    ((⟨⟨⟨100, 100, 1⟩, 50, false, []⟩,
       ⟨[(0, ⟨⟨100, 1, 1, 1, [7], [], none⟩, 0, [], [], 1, 1, 1⟩)], 1, 1⟩,
       ⟨[(7, 0)]⟩, ⟨[(⟨1, 1, 0, 100⟩, 0)], [(100, 0)]⟩, true, ⟨[], []⟩,
       [(100, 0)], 1, 1⟩ : Pool).insertFull
      ⟨101, 5, 1, 1, [7], [], none⟩).removal_calls = [0, 0] ∧
    ((⟨⟨⟨100, 100, 1⟩, 50, false, []⟩,
       ⟨[(0, ⟨⟨100, 1, 1, 1, [7], [], none⟩, 0, [], [], 1, 1, 1⟩)], 1, 1⟩,
       ⟨[(7, 0)]⟩, ⟨[(⟨1, 1, 0, 100⟩, 0)], [(100, 0)]⟩, true, ⟨[], []⟩,
       [(100, 0)], 1, 1⟩ : Pool).insertFull
      ⟨101, 5, 1, 1, [7], [], none⟩).result =
      Except.ok [⟨100, 1, 1, 1, [7], [], none⟩] ∧
    (⟨⟨⟨100, 100, 1⟩, 50, false, []⟩,
      ⟨[(0, ⟨⟨100, 1, 1, 1, [7], [], none⟩, 0, [], [], 1, 1, 1⟩)], 1, 1⟩,
      ⟨[(7, 0)]⟩, ⟨[(⟨1, 1, 0, 100⟩, 0)], [(100, 0)]⟩, true, ⟨[], []⟩,
      [(100, 0)], 1, 1⟩ : Pool).check_pool_size_available
      ⟨101, 5, 1, 1, [7], [], none⟩ [(0, [7])] [] = Except.ok [0] := by
  refine ⟨rfl, rfl, rfl⟩

/-- C7, amended.  In a successful insert the sequence of indices on which
`remove_transaction_and_dependents_subtree` is invoked is the eviction set
returned by the capacity check followed by *all* colliding residents — not
only those outside the eviction set — so a colliding resident contained in
the eviction set has the removal invoked on it twice (the second invocation
finds the resident already gone and removes nothing further). -/
theorem C7_theorem (p : Pool) (tx : PoolTx) (out : List PoolTx)
    (h : (p.insertFull tx).result = Except.ok out) :
    ∃ evict, p.check_pool_size_available tx
        (p.collision_manager.collect_colliding_transactions tx)
        (p.storage.collect_transaction_dependencies tx) = Except.ok evict ∧
      (p.insertFull tx).removal_calls =
        evict ++ (p.collision_manager.collect_colliding_transactions tx).map Prod.fst := by
  rcases hfull : p.insertFull tx with ⟨res, pool', calls⟩
  rw [hfull] at h
  dsimp only at h ⊢
  rw [Pool.insertFull] at hfull
  rcases hv : p.latest_view with e | view
  · rw [hv] at hfull
    cases hfull
    exact absurd h (by simp)
  · rw [hv] at hfull
    dsimp only at hfull
    rcases hb : p.check_blacklisting tx with e | u
    · rw [hb] at hfull
      cases hfull
      exact absurd h (by simp)
    · rw [hb] at hfull
      dsimp only at hfull
      rcases hblob : check_blob_does_not_exist tx view with e | u
      · rw [hblob] at hfull
        cases hfull
        exact absurd h (by simp)
      · rw [hblob] at hfull
        dsimp only at hfull
        rcases hval : p.storage.validate_inputs tx view p.config.utxo_validation with e | u
        · rw [hval] at hfull
          cases hfull
          exact absurd h (by simp)
        · rw [hval] at hfull
          dsimp only at hfull
          rcases hcs : CM.can_store_transaction p.collision_manager tx
              (decide ¬ (p.storage.collect_transaction_dependencies tx).isEmpty = true)
              (p.collision_manager.collect_colliding_transactions tx) p.storage
              (p.storage.collect_transaction_dependencies tx) with e | u
          · rw [hcs] at hfull
            cases hfull
            exact absurd h (by simp)
          · rw [hcs] at hfull
            dsimp only at hfull
            rcases hchk : p.check_pool_size_available tx
                (p.collision_manager.collect_colliding_transactions tx)
                (p.storage.collect_transaction_dependencies tx) with e | evict
            · rw [hchk] at hfull
              cases hfull
              exact absurd h (by simp)
            · rw [hchk] at hfull
              dsimp only at hfull
              refine ⟨evict, rfl, ?_⟩
              have := congrArg InsertOutcome.removal_calls hfull
              dsimp only at this
              rw [← this, insertCommit_calls]

/-- C7, witness: the amended theorem applied to the counterexample pool,
whose insert succeeds with eviction set `[0]` and colliding resident `0`. -/
theorem C7_witness :
    ∃ evict,
      (⟨⟨⟨100, 100, 1⟩, 50, false, []⟩,
        ⟨[(0, ⟨⟨100, 1, 1, 1, [7], [], none⟩, 0, [], [], 1, 1, 1⟩)], 1, 1⟩,
        ⟨[(7, 0)]⟩, ⟨[(⟨1, 1, 0, 100⟩, 0)], [(100, 0)]⟩, true, ⟨[], []⟩,
        [(100, 0)], 1, 1⟩ : Pool).check_pool_size_available
        ⟨101, 5, 1, 1, [7], [], none⟩
        ((⟨[(7, 0)]⟩ : CM).collect_colliding_transactions ⟨101, 5, 1, 1, [7], [], none⟩)
        ((⟨[(0, ⟨⟨100, 1, 1, 1, [7], [], none⟩, 0, [], [], 1, 1, 1⟩)], 1, 1⟩ :
            Storage).collect_transaction_dependencies ⟨101, 5, 1, 1, [7], [], none⟩) =
        Except.ok evict ∧
      ((⟨⟨⟨100, 100, 1⟩, 50, false, []⟩,
         ⟨[(0, ⟨⟨100, 1, 1, 1, [7], [], none⟩, 0, [], [], 1, 1, 1⟩)], 1, 1⟩,
         ⟨[(7, 0)]⟩, ⟨[(⟨1, 1, 0, 100⟩, 0)], [(100, 0)]⟩, true, ⟨[], []⟩,
         [(100, 0)], 1, 1⟩ : Pool).insertFull
          ⟨101, 5, 1, 1, [7], [], none⟩).removal_calls =
        evict ++ ((⟨[(7, 0)]⟩ : CM).collect_colliding_transactions
          ⟨101, 5, 1, 1, [7], [], none⟩).map Prod.fst :=
  C7_theorem _ ⟨101, 5, 1, 1, [7], [], none⟩ [⟨100, 1, 1, 1, [7], [], none⟩] (by rfl)

/-- C5, confirmed.  If `Pool::insert` returns an error the pool state —
storage, collision index, selection structure, id map, gas and byte
counters, configuration — is exactly the state before the call: every
fallible check precedes the first mutation, and once the commit phase is
entered the call always returns `Ok` (the one fallible lookup after the
mutation is of the just-stored index, which always succeeds). -/
theorem C5_theorem (p : Pool) (tx : PoolTx) (e : Err)
    (h : (p.insert tx).1 = Except.error e) :
    (p.insert tx).2 = p := by
  rw [Pool.insert] at h ⊢
  dsimp only at h ⊢
  rcases hfull : p.insertFull tx with ⟨res, pool', calls⟩
  rw [hfull] at h
  dsimp only at h ⊢
  rw [Pool.insertFull] at hfull
  rcases hv : p.latest_view with e' | view
  · rw [hv] at hfull
    cases hfull
    rfl
  · rw [hv] at hfull
    dsimp only at hfull
    rcases hb : p.check_blacklisting tx with e' | u
    · rw [hb] at hfull
      cases hfull
      rfl
    · rw [hb] at hfull
      dsimp only at hfull
      rcases hblob : check_blob_does_not_exist tx view with e' | u
      · rw [hblob] at hfull
        cases hfull
        rfl
      · rw [hblob] at hfull
        dsimp only at hfull
        rcases hval : p.storage.validate_inputs tx view p.config.utxo_validation with e' | u
        · rw [hval] at hfull
          cases hfull
          rfl
        · rw [hval] at hfull
          dsimp only at hfull
          rcases hcs : CM.can_store_transaction p.collision_manager tx
              (decide ¬ (p.storage.collect_transaction_dependencies tx).isEmpty = true)
              (p.collision_manager.collect_colliding_transactions tx) p.storage
              (p.storage.collect_transaction_dependencies tx) with e' | u
          · rw [hcs] at hfull
            cases hfull
            rfl
          · rw [hcs] at hfull
            dsimp only at hfull
            rcases hchk : p.check_pool_size_available tx
                (p.collision_manager.collect_colliding_transactions tx)
                (p.storage.collect_transaction_dependencies tx) with e' | evict
            · rw [hchk] at hfull
              cases hfull
              rfl
            · rw [hchk] at hfull
              dsimp only at hfull
              rcases insertCommit_ok p tx
                  (p.collision_manager.collect_colliding_transactions tx)
                  (p.storage.collect_transaction_dependencies tx) evict with ⟨o, ho⟩
              rw [hfull] at ho
              dsimp only at ho
              rw [ho] at h
              exact absurd h (by simp)

/-- C5, witness: the theorem applied to a pool whose persistent-storage
provider fails, so the insert errors and the pool is returned unchanged. -/
theorem C5_witness :
    ((⟨⟨⟨100, 100, 10⟩, 50, false, []⟩, ⟨[], 0, 0⟩, ⟨[]⟩, ⟨[], []⟩, false, ⟨[], []⟩,
       [], 0, 0⟩ : Pool).insert ⟨1, 1, 1, 1, [], [], none⟩).2 =
      ⟨⟨⟨100, 100, 10⟩, 50, false, []⟩, ⟨[], 0, 0⟩, ⟨[]⟩, ⟨[], []⟩, false, ⟨[], []⟩,
       [], 0, 0⟩ :=
  C5_theorem _ ⟨1, 1, 1, 1, [], [], none⟩ Err.database (by rfl)

lemma keyCmp_self (k : Key) : Key.cmp k k = Ordering.eq := by
  rw [keyCmp_eq_iff]
  exact ⟨rfl, rfl, rfl⟩

lemma keyCmp_eq_symm {a b : Key} (h : Key.cmp a b = Ordering.eq) :
    Key.cmp b a = Ordering.eq := by
  rw [keyCmp_eq_iff] at h ⊢
  exact ⟨h.1.symm, h.2.1.symm, h.2.2.symm⟩

lemma scanStep_gas_le (st : Storage) (acc : ScanAcc) (e : Key × Nat) :
    (scanStep st acc e).gas_left ≤ acc.gas_left := by
  rw [scanStep]
  rcases hget : st.get e.2 with _ | d
  · exact Nat.le_refl _
  · dsimp only
    by_cases hgas : d.transaction.max_gas > acc.gas_left
    · rw [if_pos hgas]
    · rw [if_neg hgas]
      exact Nat.sub_le _ _

lemma scanFold_gas_le (st : Storage) (entries : List (Key × Nat)) :
    ∀ acc : ScanAcc, (entries.foldl (scanStep st) acc).gas_left ≤ acc.gas_left := by
  induction entries with
  | nil => intro acc; exact Nat.le_refl _
  | cons e rest ih =>
    intro acc
    exact Nat.le_trans (ih (scanStep st acc e)) (scanStep_gas_le st acc e)

lemma scanFold_best_src (st : Storage) (entries : List (Key × Nat)) :
    ∀ (acc : ScanAcc) (e : Key × Nat),
      e ∈ (entries.foldl (scanStep st) acc).best →
      e ∈ acc.best ∨ (e ∈ entries ∧ ∃ db, st.get e.2 = some db ∧
        db.transaction.max_gas ≤ acc.gas_left) := by
  induction entries with
  | nil => intro acc e he; exact Or.inl he
  | cons q rest ih =>
    intro acc e he
    rcases ih (scanStep st acc q) e he with hin | ⟨hmem, db, hdb, hle⟩
    · rw [scanStep] at hin
      rcases hget : st.get q.2 with _ | d
      · rw [hget] at hin
        exact Or.inl hin
      · rw [hget] at hin
        dsimp only at hin
        by_cases hgas : d.transaction.max_gas > acc.gas_left
        · rw [if_pos hgas] at hin
          exact Or.inl hin
        · rw [if_neg hgas] at hin
          dsimp only at hin
          rcases List.mem_append.mp hin with hin | hin
          · exact Or.inl hin
          · rcases List.mem_singleton.mp hin with rfl
            exact Or.inr ⟨List.mem_cons_self _ _,
              d, hget, Nat.le_of_not_lt hgas⟩
    · exact Or.inr ⟨List.mem_cons_of_mem q hmem, db, hdb,
        Nat.le_trans hle (scanStep_gas_le st acc q)⟩

lemma scanFold_to_remove_src (st : Storage) (entries : List (Key × Nat)) :
    ∀ (acc : ScanAcc) (kb : Key),
      kb ∈ (entries.foldl (scanStep st) acc).to_remove →
      kb ∈ acc.to_remove ∨ ∃ jb, (kb, jb) ∈ entries ∧ st.get jb = none := by
  induction entries with
  | nil => intro acc kb hk; exact Or.inl hk
  | cons q rest ih =>
    intro acc kb hk
    rcases ih (scanStep st acc q) kb hk with hin | ⟨jb, hmem, hnone⟩
    · rw [scanStep] at hin
      rcases hget : st.get q.2 with _ | d
      · rw [hget] at hin
        dsimp only at hin
        rcases List.mem_append.mp hin with hin | hin
        · exact Or.inl hin
        · rcases List.mem_singleton.mp hin with rfl
          exact Or.inr ⟨q.2, by simp, hget⟩
      · rw [hget] at hin
        dsimp only at hin
        by_cases hgas : d.transaction.max_gas > acc.gas_left
        · rw [if_pos hgas] at hin
          exact Or.inl hin
        · rw [if_neg hgas] at hin
          exact Or.inl hin
    · exact Or.inr ⟨jb, List.mem_cons_of_mem q hmem, hnone⟩

lemma sumGasOf_shift (st : Storage) (l : List Nat) :
    ∀ n : Nat, l.foldl (fun s i => s + gasOf st i) n = n + sumGasOf st l := by
  induction l with
  | nil => intro n; simp [sumGasOf]
  | cons i rest ih =>
    intro n
    rw [sumGasOf, List.foldl_cons, List.foldl_cons, ih, ih (0 + gasOf st i)]
    omega

lemma sumGasOf_append (st : Storage) (a b : List Nat) :
    sumGasOf st (a ++ b) = sumGasOf st a + sumGasOf st b := by
  rw [sumGasOf, List.foldl_append, sumGasOf_shift]
  rw [show a.foldl (fun s i => s + gasOf st i) 0 = sumGasOf st a from rfl]

lemma scanFold_gas_inv (st : Storage) (entries : List (Key × Nat)) :
    ∀ acc : ScanAcc,
      (entries.foldl (scanStep st) acc).gas_left +
          sumGasOf st ((entries.foldl (scanStep st) acc).best.map Prod.snd) =
        acc.gas_left + sumGasOf st (acc.best.map Prod.snd) := by
  induction entries with
  | nil => intro acc; rfl
  | cons q rest ih =>
    intro acc
    rw [List.foldl_cons, ih]
    rw [scanStep]
    rcases hget : st.get q.2 with _ | d
    · rfl
    · dsimp only
      by_cases hgas : d.transaction.max_gas > acc.gas_left
      · rw [if_pos hgas]
      · rw [if_neg hgas]
        dsimp only
        rw [List.map_append, sumGasOf_append]
        have hg : gasOf st q.2 = d.transaction.max_gas := by
          rw [gasOf, hget]
        have : sumGasOf st [q.2] = d.transaction.max_gas := by
          rw [sumGasOf, List.foldl_cons, List.foldl_nil, hg]
          omega
        rw [List.map_cons, List.map_nil] at *
        rw [this]
        omega

lemma gatherPass_gas (st : Storage) (gas_left : Nat) (sa : SA)
    (g' : Nat) (sel : List Nat) (sa' : SA) (ex : Bool)
    (h : gatherPass st gas_left sa = some (g', sel, sa', ex)) :
    g' + sumGasOf st sel = gas_left := by
  rw [gatherPass] at h
  dsimp only at h
  split at h
  · cases h
    simp [sumGasOf]
  · rcases hp : promoteAll st
        (applyRemovals (applyRemovals sa (scanList st sa.sorted gas_left).to_remove)
          (List.map Prod.fst (scanList st sa.sorted gas_left).best))
        (scanList st sa.sorted gas_left).to_promote with _ | sa3
    · rw [hp] at h
      exact absurd h (by simp)
    · rw [hp] at h
      cases h
      have := scanFold_gas_inv st sa.sorted ⟨gas_left, [], [], []⟩
      rw [show (⟨gas_left, [], [], []⟩ : ScanAcc).gas_left = gas_left from rfl] at this
      rw [show (⟨gas_left, [], [], []⟩ : ScanAcc).best = [] from rfl] at this
      rw [show (scanList st sa.sorted gas_left) =
        sa.sorted.foldl (scanStep st) ⟨gas_left, [], [], []⟩ from rfl]
      rw [this]
      simp [sumGasOf]

lemma gatherGo_gas_bound (st : Storage) :
    ∀ (fuel gas_left : Nat) (sa : SA) (acc res : List Nat) (sa' : SA),
      gatherGo st fuel gas_left sa acc = some (res, sa') →
      sumGasOf st res ≤ sumGasOf st acc + gas_left := by
  intro fuel
  induction fuel with
  | zero => intro gas sa acc res sa' h; exact absurd h (by simp [gatherGo])
  | succ f ih =>
    intro gas sa acc res sa' h
    rw [gatherGo] at h
    split at h
    · rcases hp : gatherPass st gas sa with _ | r
      · rw [hp] at h
        exact absurd h (by simp)
      · rw [hp] at h
        rcases r with ⟨g', sel, sa₁, ex⟩
        dsimp only at h
        rcases ex with _ | _
        · rw [if_neg (by simp)] at h
          have hb := ih g' sa₁ (acc ++ sel) res sa' h
          have hg := gatherPass_gas st gas sa g' sel sa₁ false hp
          rw [sumGasOf_append] at hb
          omega
        · rw [if_pos rfl] at h
          cases h
          exact Nat.le_add_right _ _
    · cases h
      exact Nat.le_add_right _ _

lemma saRemove_mem_ne {l : List (Key × Nat)} {k : Key} {i : Nat} (kr : Key)
    (hmem : (k, i) ∈ l) (hne : Key.cmp k kr ≠ Ordering.eq) :
    (k, i) ∈ saRemove l kr := by
  induction l with
  | nil => exact absurd hmem (by simp)
  | cons e rest ih =>
    rcases e with ⟨k', v'⟩
    rw [saRemove]
    by_cases he : Key.cmp k' kr = Ordering.eq
    · rw [if_pos he]
      rcases List.mem_cons.mp hmem with hh | hh
      · cases hh
        exact absurd he hne
      · exact hh
    · rw [if_neg he]
      rcases List.mem_cons.mp hmem with hh | hh
      · cases hh
        exact List.mem_cons_self _ _
      · exact List.mem_cons_of_mem _ (ih hh)

lemma saInsert_mem_ne {l : List (Key × Nat)} {k : Key} {i : Nat} (kd : Key) (v : Nat)
    (hmem : (k, i) ∈ l) (hne : Key.cmp k kd ≠ Ordering.eq) :
    (k, i) ∈ saInsert l kd v := by
  induction l with
  | nil => exact absurd hmem (by simp)
  | cons e rest ih =>
    rcases e with ⟨k', v'⟩
    rw [saInsert]
    rcases hc : Key.cmp k' kd with _ | _ | _
    · exact List.mem_cons_of_mem _ hmem
    · rcases List.mem_cons.mp hmem with hh | hh
      · cases hh
        exact absurd hc hne
      · exact List.mem_cons_of_mem _ hh
    · rcases List.mem_cons.mp hmem with hh | hh
      · cases hh
        exact List.mem_cons_self _ _
      · exact List.mem_cons_of_mem _ (ih hh)

lemma saInsert_mem_self {l : List (Key × Nat)} {k : Key} {i : Nat} (kd : Key)
    (hmem : (k, i) ∈ l) : (k, i) ∈ saInsert l kd i := by
  induction l with
  | nil => exact absurd hmem (by simp)
  | cons e rest ih =>
    rcases e with ⟨k', v'⟩
    rw [saInsert]
    rcases hc : Key.cmp k' kd with _ | _ | _
    · exact List.mem_cons_of_mem _ hmem
    · rcases List.mem_cons.mp hmem with hh | hh
      · cases hh
        exact List.mem_cons_self _ _
      · exact List.mem_cons_of_mem _ hh
    · rcases List.mem_cons.mp hmem with hh | hh
      · cases hh
        exact List.mem_cons_self _ _
      · exact List.mem_cons_of_mem _ (ih hh)

lemma on_removed_inner_survive {s : SA} {k : Key} {i : Nat} (rT rG t : Nat)
    (hmem : (k, i) ∈ s.sorted)
    (hne : ¬ (ratioCmp (rT, rG) (k.ratioTip, k.ratioGas) = Ordering.eq ∧ t = k.txId)) :
    (k, i) ∈ (s.on_removed_transaction_inner rT rG t).sorted := by
  rw [SA.on_removed_transaction_inner]
  rcases hl : alGet s.instants t with _ | inst
  · exact hmem
  · dsimp only
    refine saRemove_mem_ne _ hmem ?_
    intro he
    rw [keyCmp_eq_iff] at he
    dsimp only at he
    refine hne ⟨?_, he.2.2.symm⟩
    rw [ratioCmp_eq_iff]
    exact he.1.symm

lemma applyRemovals_survive {k : Key} {i : Nat} :
    ∀ (ks : List Key) (s : SA), (k, i) ∈ s.sorted →
      (∀ kr ∈ ks, ¬ (ratioCmp (kr.ratioTip, kr.ratioGas) (k.ratioTip, k.ratioGas) =
        Ordering.eq ∧ kr.txId = k.txId)) →
      (k, i) ∈ (applyRemovals s ks).sorted := by
  intro ks
  induction ks with
  | nil => intro s hmem _; exact hmem
  | cons kr rest ih =>
    intro s hmem hks
    rw [applyRemovals, List.foldl_cons]
    exact ih _ (on_removed_inner_survive _ _ _ hmem (hks kr (List.mem_cons_self _ _)))
      (fun kq hq => hks kq (List.mem_cons_of_mem _ hq))

lemma promoteAll_survive {st : Storage} {k : Key} {i : Nat}
    (h3 : ∀ j d', st.get j = some d' →
      Key.cmp ⟨d'.transaction.tip, d'.transaction.max_gas, d'.creation_instant,
        d'.transaction.txId⟩ k = Ordering.eq → j = i) :
    ∀ (ps : List Nat) (s s' : SA), promoteAll st s ps = some s' →
      (k, i) ∈ s.sorted → (k, i) ∈ s'.sorted := by
  intro ps
  induction ps with
  | nil =>
    intro s s' h hmem
    rw [promoteAll] at h
    cases h
    exact hmem
  | cons q rest ih =>
    intro s s' h hmem
    rw [promoteAll] at h
    rcases hget : st.get q with _ | d
    · rw [hget] at h
      exact absurd h (by simp)
    · rw [hget] at h
      refine ih _ _ h ?_
      rw [SA.new_executable_transaction, SA.on_stored_transaction_inner]
      dsimp only
      by_cases he : Key.cmp ⟨d.transaction.tip, d.transaction.max_gas,
          d.creation_instant, d.transaction.txId⟩ k = Ordering.eq
      · have hq := h3 q d hget he
        subst hq
        exact saInsert_mem_self _ hmem
      · refine saInsert_mem_ne _ _ hmem ?_
        intro hk
        exact he (keyCmp_eq_symm hk)

lemma keyNe_symmetric :
    Symmetric (fun a b : Key × Nat => Key.cmp a.1 b.1 ≠ Ordering.eq) := by
  intro a b hab he
  exact hab (keyCmp_eq_symm he)

lemma gatherPass_skip_survive (st : Storage) (gas_left : Nat) (sa : SA)
    (k : Key) (i : Nat) (d : StorageData)
    (hpw : sa.sorted.Pairwise (fun a b => Key.cmp a.1 b.1 ≠ Ordering.eq))
    (h2 : ∀ e ∈ sa.sorted, alGet sa.instants e.1.txId = some e.1.creation_instant)
    (h3 : ∀ j d', st.get j = some d' →
      Key.cmp ⟨d'.transaction.tip, d'.transaction.max_gas, d'.creation_instant,
        d'.transaction.txId⟩ k = Ordering.eq → j = i)
    (hmem : (k, i) ∈ sa.sorted)
    (hres : st.get i = some d)
    (hskip : gas_left < d.transaction.max_gas)
    (r : Nat × List Nat × SA × Bool)
    (hp : gatherPass st gas_left sa = some r) :
    (k, i) ∉ (scanList st sa.sorted gas_left).best ∧
    k ∉ (scanList st sa.sorted gas_left).to_remove ∧
    (k, i) ∈ r.2.2.1.sorted := by
  have hnotbest : (k, i) ∉ (scanList st sa.sorted gas_left).best := by
    intro hin
    rcases scanFold_best_src st sa.sorted ⟨gas_left, [], [], []⟩ (k, i) hin with
      hin | ⟨_, db, hdb, hle⟩
    · exact absurd hin (by simp)
    · rw [hres] at hdb
      cases hdb
      have hle' : d.transaction.max_gas ≤ gas_left := hle
      omega
  have hnotrm : k ∉ (scanList st sa.sorted gas_left).to_remove := by
    intro hin
    rcases scanFold_to_remove_src st sa.sorted ⟨gas_left, [], [], []⟩ k hin with
      hin | ⟨jb, hjb, hnone⟩
    · exact absurd hin (by simp)
    · by_cases hji : jb = i
      · subst hji
        rw [hres] at hnone
        exact absurd hnone (by simp)
      · have hne : (k, i) ≠ (k, jb) := by
          intro hc
          exact hji (congrArg Prod.snd hc).symm
        have := List.Pairwise.forall keyNe_symmetric hpw hmem hjb hne
        exact this (keyCmp_self k)
  -- keys whose reconstructed removal key could collide with `k` would force
  -- `cmp`-equality with `k`'s entry, which the pairwise hypothesis and the
  -- scan facts exclude
  have hcond : ∀ (kr : Key) (jr : Nat), (kr, jr) ∈ sa.sorted → (kr, jr) ≠ (k, i) →
      ¬ (ratioCmp (kr.ratioTip, kr.ratioGas) (k.ratioTip, k.ratioGas) =
        Ordering.eq ∧ kr.txId = k.txId) := by
    rintro kr jr hkr hne ⟨hrq, htq⟩
    have hi1 := h2 (kr, jr) hkr
    have hi2 := h2 (k, i) hmem
    dsimp only at hi1 hi2
    rw [htq] at hi1
    rw [hi2] at hi1
    have hci : kr.creation_instant = k.creation_instant :=
      (Option.some.inj hi1).symm
    have : Key.cmp kr k = Ordering.eq := by
      rw [keyCmp_eq_iff]
      rw [ratioCmp_eq_iff] at hrq
      exact ⟨hrq, hci, htq⟩
    exact (List.Pairwise.forall keyNe_symmetric hpw hkr hmem hne) this
  have hcondrm : ∀ kr ∈ (scanList st sa.sorted gas_left).to_remove,
      ¬ (ratioCmp (kr.ratioTip, kr.ratioGas) (k.ratioTip, k.ratioGas) =
        Ordering.eq ∧ kr.txId = k.txId) := by
    intro kr hkr
    rcases scanFold_to_remove_src st sa.sorted ⟨gas_left, [], [], []⟩ kr hkr with
      hin | ⟨jr, hjr, hnone⟩
    · exact absurd hin (by simp)
    · refine hcond kr jr hjr ?_
      intro hc
      have hji : jr = i := congrArg Prod.snd hc
      rw [hji, hres] at hnone
      exact absurd hnone (by simp)
  have hcondbest : ∀ kr ∈ (scanList st sa.sorted gas_left).best.map Prod.fst,
      ¬ (ratioCmp (kr.ratioTip, kr.ratioGas) (k.ratioTip, k.ratioGas) =
        Ordering.eq ∧ kr.txId = k.txId) := by
    intro kr hkr
    rcases List.mem_map.mp hkr with ⟨e, hbmem, hkb⟩
    rcases scanFold_best_src st sa.sorted ⟨gas_left, [], [], []⟩ e hbmem with
      hin | ⟨hje, db, hdb, hle⟩
    · exact absurd hin (by simp)
    · subst hkb
      refine hcond e.1 e.2 (by exact hje) ?_
      intro hc
      have he : e = (k, i) := by
        cases e
        exact hc
      rw [he] at hbmem
      exact hnotbest hbmem
  refine ⟨hnotbest, hnotrm, ?_⟩
  rw [gatherPass] at hp
  dsimp only at hp
  have hsurv1 : (k, i) ∈
      (applyRemovals sa (scanList st sa.sorted gas_left).to_remove).sorted :=
    applyRemovals_survive _ sa hmem hcondrm
  split at hp
  · cases hp
    exact hsurv1
  · rcases hpa : promoteAll st
        (applyRemovals (applyRemovals sa (scanList st sa.sorted gas_left).to_remove)
          (List.map Prod.fst (scanList st sa.sorted gas_left).best))
        (scanList st sa.sorted gas_left).to_promote with _ | sa3
    · rw [hpa] at hp
      exact absurd hp (by simp)
    · rw [hpa] at hp
      cases hp
      refine promoteAll_survive h3 _ _ _ hpa ?_
      exact applyRemovals_survive _ _ hsurv1 hcondbest

lemma alGet_mem {α : Type} (l : List (Nat × α)) (k : Nat) (v : α)
    (h : alGet l k = some v) : (k, v) ∈ l := by
  induction l with
  | nil => exact absurd h (by simp [alGet])
  | cons e rest ih =>
    rcases e with ⟨k', v'⟩
    rw [alGet] at h
    by_cases hk : k' = k
    · rw [if_pos hk] at h
      cases h
      cases hk
      exact List.mem_cons_self _ _
    · rw [if_neg hk] at h
      exact List.mem_cons_of_mem _ (ih h)

/-- C6, confirmed.  (a) The total `max_gas` of the indices returned by
`gather_best_txs` never exceeds the constraint's `max_gas`, for any fuel and
any state.  (b) An executable entry whose own `max_gas` exceeds the pass's
remaining gas budget is skipped: it is neither selected nor queued for
removal, and after the pass it is still present in the priority structure
(under the structure's well-formedness: pairwise `cmp`-distinct keys, a
consistent instants map, and no other resident sharing the entry's key). -/
theorem C6_theorem :
    (∀ (st : Storage) (cons : Constraints) (fuel : Nat) (sa : SA)
        (res : List Nat) (sa'' : SA),
      gather_best_txs st cons fuel sa = some (res, sa'') →
      sumGasOf st res ≤ cons.max_gas) ∧
    (∀ (st : Storage) (gas_left : Nat) (sa : SA) (k : Key) (i : Nat)
        (d : StorageData) (r : Nat × List Nat × SA × Bool),
      sa.sorted.Pairwise (fun a b => Key.cmp a.1 b.1 ≠ Ordering.eq) →
      (∀ e ∈ sa.sorted, alGet sa.instants e.1.txId = some e.1.creation_instant) →
      (∀ j d', st.get j = some d' →
        Key.cmp ⟨d'.transaction.tip, d'.transaction.max_gas, d'.creation_instant,
          d'.transaction.txId⟩ k = Ordering.eq → j = i) →
      (k, i) ∈ sa.sorted → st.get i = some d → gas_left < d.transaction.max_gas →
      gatherPass st gas_left sa = some r →
      (k, i) ∉ (scanList st sa.sorted gas_left).best ∧
      k ∉ (scanList st sa.sorted gas_left).to_remove ∧
      (k, i) ∈ r.2.2.1.sorted) := by
  constructor
  · intro st cons fuel sa res sa'' h
    have := gatherGo_gas_bound st fuel cons.max_gas sa [] res sa'' h
    simpa [sumGasOf] using this
  · intro st gas_left sa k i d r hpw h2 h3 hmem hres hskip hp
    exact gatherPass_skip_survive st gas_left sa k i d hpw h2 h3 hmem hres hskip r hp

/-- C6, witness: part (a) applied to a concrete three-transaction run whose
selected gas total is within the block budget, and part (b) applied to a
structure holding one entry whose gas exceeds the budget, which survives the
pass. -/
theorem C6_witness :
    sumGasOf
        ⟨[(1, ⟨⟨1, 50, 5, 1, [], [], none⟩, 0, [], [3], 9, 2, 90⟩),
          (2, ⟨⟨2, 100, 100, 1, [], [], none⟩, 0, [], [3], 104, 2, 140⟩),
          (3, ⟨⟨3, 40, 4, 1, [], [], none⟩, 2, [1, 2], [], 4, 1, 40⟩)], 4, 3⟩
        [1, 3] ≤ 10 ∧
    (⟨100, 100, 0, 2⟩, 2) ∈
      (applyRemovals
        ⟨[(⟨100, 100, 0, 2⟩, 2)], [(2, 0)]⟩
        (scanList
          ⟨[(1, ⟨⟨1, 50, 5, 1, [], [], none⟩, 0, [], [3], 9, 2, 90⟩),
            (2, ⟨⟨2, 100, 100, 1, [], [], none⟩, 0, [], [3], 104, 2, 140⟩),
            (3, ⟨⟨3, 40, 4, 1, [], [], none⟩, 2, [1, 2], [], 4, 1, 40⟩)], 4, 3⟩
          [(⟨100, 100, 0, 2⟩, 2)] 10).to_remove).sorted := by
  constructor
  · exact C6_theorem.1
      ⟨[(1, ⟨⟨1, 50, 5, 1, [], [], none⟩, 0, [], [3], 9, 2, 90⟩),
        (2, ⟨⟨2, 100, 100, 1, [], [], none⟩, 0, [], [3], 104, 2, 140⟩),
        (3, ⟨⟨3, 40, 4, 1, [], [], none⟩, 2, [1, 2], [], 4, 1, 40⟩)], 4, 3⟩
      ⟨10⟩ 5
      ⟨[(⟨50, 5, 0, 1⟩, 1), (⟨100, 100, 0, 2⟩, 2)], [(1, 0), (2, 0)]⟩
      [1, 3] ⟨[(⟨100, 100, 0, 2⟩, 2)], [(2, 0)]⟩ (by rfl)
  · have h := (C6_theorem.2
      ⟨[(1, ⟨⟨1, 50, 5, 1, [], [], none⟩, 0, [], [3], 9, 2, 90⟩),
        (2, ⟨⟨2, 100, 100, 1, [], [], none⟩, 0, [], [3], 104, 2, 140⟩),
        (3, ⟨⟨3, 40, 4, 1, [], [], none⟩, 2, [1, 2], [], 4, 1, 40⟩)], 4, 3⟩
      10 ⟨[(⟨100, 100, 0, 2⟩, 2)], [(2, 0)]⟩ ⟨100, 100, 0, 2⟩ 2
      ⟨⟨2, 100, 100, 1, [], [], none⟩, 0, [], [3], 104, 2, 140⟩
      (10, [], ⟨[(⟨100, 100, 0, 2⟩, 2)], [(2, 0)]⟩, true)
      (by simp)
      (by decide)
      (by
        intro j d' hj hcmp
        have hm := alGet_mem _ _ _ hj
        fin_cases hm
        · exact absurd hcmp (by decide)
        · rfl
        · exact absurd hcmp (by decide))
      (by decide) (by rfl) (by decide) (by rfl))
    exact h.2.2

lemma alGet_filter_ne {α : Type} (l : List (Nat × α)) (i x : Nat) (hx : x ≠ i) :
    alGet (l.filter fun e => decide (e.1 ≠ i)) x = alGet l x := by
  induction l with
  | nil => rfl
  | cons e rest ih =>
    rcases e with ⟨k', v'⟩
    by_cases hk : k' = i
    · subst hk
      rw [List.filter_cons_of_neg (by simp)]
      rw [ih, show alGet ((k', v') :: rest) x = if k' = x then some v' else alGet rest x
        from rfl, if_neg (fun hc => hx hc.symm)]
    · rw [List.filter_cons_of_pos (by simpa using hk)]
      rw [alGet, alGet]
      by_cases hkx : k' = x
      · rw [if_pos hkx, if_pos hkx]
      · rw [if_neg hkx, if_neg hkx, ih]

lemma alGet_filter_self {α : Type} (l : List (Nat × α)) (i : Nat) :
    alGet (l.filter fun e => decide (e.1 ≠ i)) i = none := by
  rw [alGet_eq_none_iff]
  intro e he
  have := List.of_mem_filter he
  simpa using this

lemma alGet_map_keyed {α : Type} (f : Nat → α → α) (l : List (Nat × α)) (x : Nat) :
    alGet (l.map fun e => (e.1, f e.1 e.2)) x = (alGet l x).map (f x) := by
  induction l with
  | nil => rfl
  | cons e rest ih =>
    rcases e with ⟨k', v'⟩
    rw [List.map_cons, alGet, alGet]
    by_cases hk : k' = x
    · subst hk
      rw [if_pos rfl, if_pos rfl]
      rfl
    · rw [if_neg hk, if_neg hk, ih]

lemma alGet_cons {α : Type} (p : Nat × α) (rest : List (Nat × α)) (k : Nat) :
    alGet (p :: rest) k = if p.1 = k then some p.2 else alGet rest k := by
  rcases p with ⟨k', v⟩
  rfl

lemma alGet_map_keyed' {α : Type} (F : Nat × α → Nat × α)
    (hF : ∀ e, (F e).1 = e.1) (l : List (Nat × α)) (x : Nat) :
    alGet (l.map F) x = (alGet l x).map (fun v => (F (x, v)).2) := by
  induction l with
  | nil => rfl
  | cons e rest ih =>
    rcases e with ⟨k', v'⟩
    rw [List.map_cons, alGet_cons, alGet_cons, hF]
    dsimp only
    by_cases hk : k' = x
    · subst hk
      rw [if_pos rfl, if_pos rfl]
      rfl
    · rw [if_neg hk, if_neg hk, ih]

lemma remove_wd_spec (st : Storage) (i : Nat) (di : StorageData) (st' : Storage)
    (h : st.remove_transaction_without_dependencies i = Except.ok (di, st')) :
    st.get i = some di ∧ di.parents = [] ∧
    ∀ x d'', st'.get x = some d'' → x ≠ i ∧ ∃ d', st.get x = some d' ∧
      ∀ q ∈ d'.parents, q = i ∨ q ∈ d''.parents := by
  rw [Storage.remove_transaction_without_dependencies] at h
  rcases hget : st.get i with _ | d
  · rw [hget] at h
    exact absurd h (by simp)
  · rw [hget] at h
    dsimp only at h
    by_cases hpar : d.parents = []
    · rw [if_pos hpar] at h
      have hinj := Except.ok.inj h
      have hdi : d = di := congrArg Prod.fst hinj
      have hst : st' = ({ st with entries :=
          (st.entries.filter (fun e => decide (e.1 ≠ i))).map (fun e =>
            if d.children.contains e.1 then
              (e.1, { e.2 with parents := e.2.parents.filter (fun q => decide (q ≠ i)) })
            else e) } : Storage) := (congrArg Prod.snd hinj).symm
      subst hdi
      refine ⟨rfl, hpar, ?_⟩
      intro x d'' hx
      have hF : ∀ e : Nat × StorageData,
          ((fun e : Nat × StorageData =>
            if d.children.contains e.1 then
              (e.1, { e.2 with parents := e.2.parents.filter (fun q => decide (q ≠ i)) })
            else e) e).1 = e.1 := by
        intro e
        dsimp only
        by_cases hc : d.children.contains e.1
        · rw [if_pos hc]
        · rw [if_neg hc]
      rw [hst] at hx
      rw [show (({ st with entries :=
          (st.entries.filter (fun e => decide (e.1 ≠ i))).map (fun e =>
            if d.children.contains e.1 then
              (e.1, { e.2 with parents := e.2.parents.filter (fun q => decide (q ≠ i)) })
            else e) } : Storage)).get x = alGet ((st.entries.filter
              (fun e => decide (e.1 ≠ i))).map (fun e =>
            if d.children.contains e.1 then
              (e.1, { e.2 with parents := e.2.parents.filter (fun q => decide (q ≠ i)) })
            else e)) x from rfl] at hx
      rw [alGet_map_keyed' _ hF] at hx
      by_cases hxi : x = i
      · subst hxi
        rw [alGet_filter_self] at hx
        exact absurd hx (by simp)
      · refine ⟨hxi, ?_⟩
        rw [alGet_filter_ne st.entries i x hxi] at hx
        rcases hold : alGet st.entries x with _ | dold
        · rw [hold] at hx
          exact absurd hx (by simp)
        · rw [hold] at hx
          refine ⟨dold, hold, ?_⟩
          have hd'' : d'' = ((fun e : Nat × StorageData =>
              if d.children.contains e.1 then
                (e.1, { e.2 with parents := e.2.parents.filter (fun q => decide (q ≠ i)) })
              else e) (x, dold)).2 := (Option.some.inj hx).symm
          intro q hq
          rw [hd'']
          by_cases hc : d.children.contains x
          · rw [show ((fun e : Nat × StorageData =>
                if d.children.contains e.1 then
                  (e.1, { e.2 with parents := e.2.parents.filter (fun q => decide (q ≠ i)) })
                else e) (x, dold)) = (x, { dold with
                  parents := dold.parents.filter (fun q => decide (q ≠ i)) }) from
              if_pos hc]
            by_cases hqi : q = i
            · exact Or.inl hqi
            · exact Or.inr (List.mem_filter.mpr ⟨hq, by simpa using hqi⟩)
          · rw [show ((fun e : Nat × StorageData =>
                if d.children.contains e.1 then
                  (e.1, { e.2 with parents := e.2.parents.filter (fun q => decide (q ≠ i)) })
                else e) (x, dold)) = (x, dold) from if_neg hc]
            exact Or.inr hq
    · rw [if_neg hpar] at h
      exact absurd h (by simp)

lemma Pres_init (orig : Storage) : Pres orig [] orig := by
  intro x d' hx
  exact ⟨d', hx, fun q hq => Or.inl hq⟩

lemma Pres_step (orig : Storage) (done : List Nat) (st : Storage) (i : Nat)
    (di : StorageData) (st' : Storage) (hp : Pres orig done st)
    (h : st.remove_transaction_without_dependencies i = Except.ok (di, st')) :
    Pres orig (done ++ [i]) st' := by
  rcases remove_wd_spec st i di st' h with ⟨_, _, hspec⟩
  intro x d'' hx
  rcases hspec x d'' hx with ⟨hxi, d', hd', hq⟩
  rcases hp x d' hd' with ⟨d, hd, hpar⟩
  refine ⟨d, hd, ?_⟩
  intro q hqd
  rcases hpar q hqd with hin | hdone
  · rcases hq q hin with rfl | hin'
    · exact Or.inr (by simp)
    · exact Or.inl hin'
  · exact Or.inr (List.mem_append_left _ hdone)

lemma extractGo_parents (orig : Storage) :
    ∀ (idxs : List Nat) (p : Pool) (acc out : List PoolTx) (p' : Pool)
        (done : List Nat),
      Pres orig done p.storage →
      Pool.extractGo p idxs acc = (Except.ok out, p') →
      ∀ n i, idxs.get? n = some i → ∃ d, orig.get i = some d ∧
        ∀ q ∈ d.parents, q ∈ done ∨ ∃ m, m < n ∧ idxs.get? m = some q := by
  intro idxs
  induction idxs with
  | nil =>
    intro p acc out p' done _ _ n i hn
    exact absurd hn (by simp)
  | cons i0 rest ih =>
    intro p acc out p' done hpres h n i hn
    rw [Pool.extractGo] at h
    rcases hrm : p.storage.remove_transaction_without_dependencies i0 with e | r
    · rw [hrm] at h
      dsimp only at h
      exact absurd (congrArg Prod.fst h) (by simp)
    · rcases r with ⟨data, st'⟩
      rw [hrm] at h
      dsimp only at h
      rcases remove_wd_spec p.storage i0 data st' hrm with ⟨hget0, hpar0, _⟩
      rcases n with _ | n
    
      · have hi : i = i0 := by
          have h0 := hn
          simp at h0
          exact h0.symm
        subst hi
        rcases hpres i data hget0 with ⟨d, hd, hq⟩
        refine ⟨d, hd, ?_⟩
        intro q hqd
        rcases hq q hqd with hin | hdone
        · rw [hpar0] at hin
          exact absurd hin (by simp)
        · exact Or.inl hdone
      · have hpres' : Pres orig (done ++ [i0])
            ({ p with
              storage := st'
              collision_manager := p.collision_manager.on_removed_transaction data.transaction
              selection_algorithm := p.selection_algorithm.on_removed_transaction data.transaction
              tx_id_to_storage_id := alRemove p.tx_id_to_storage_id data.transaction.txId } :
                Pool).storage :=
          Pres_step orig done p.storage i0 data st' hpres hrm
        have hrec := ih _ _ _ _ _ hpres' h n i (by simpa using hn)
        rcases hrec with ⟨d, hd, hq⟩
        refine ⟨d, hd, ?_⟩
        intro q hqd
        rcases hq q hqd with hdone | ⟨m, hm, hqm⟩
        · rcases List.mem_append.mp hdone with hdone | hq0
          · exact Or.inl hdone
          · rcases List.mem_singleton.mp hq0 with rfl
            exact Or.inr ⟨0, Nat.succ_pos _, rfl⟩
        · exact Or.inr ⟨m + 1, Nat.succ_lt_succ hm, by simpa using hqm⟩

/-- C3, confirmed.  In any successful `extract_transactions_for_block`, the
returned sequence respects dependencies: whenever the transaction extracted
at position `n` (transitively) depends on another resident `j`, that
resident was extracted at an earlier position.  The per-index removal
(`remove_transaction_without_dependencies`, modelled from the spec with its
`parents = ∅` precondition checked) can only succeed once every parent has
already been removed by an earlier position of the same call. -/
theorem C3_theorem (p : Pool) (fuel : Nat) (out : List PoolTx) (p' : Pool)
    (idxs : List Nat) (sa' : SA)
    (hg : gather_best_txs p.storage ⟨p.config.max_block_gas⟩ fuel
      p.selection_algorithm = some (idxs, sa'))
    (h : p.extract_transactions_for_block fuel = (Except.ok out, p'))
    (n : Nat) (i j : Nat) (hn : idxs.get? n = some i)
    (hdep : DependsOn p.storage i j) :
    ∃ m, m < n ∧ idxs.get? m = some j := by
  rw [Pool.extract_transactions_for_block] at h
  rw [hg] at h
  dsimp only at h
  have key := extractGo_parents p.storage idxs
    ({ p with selection_algorithm := sa' } : Pool) [] out p' []
    (Pres_init p.storage) h
  have direct : ∀ (n' i' q : Nat), idxs.get? n' = some i' →
      dependsOnStep p.storage i' q → ∃ m, m < n' ∧ idxs.get? m = some q := by
    rintro n' i' q hn' ⟨d, hd, hq⟩
    rcases key n' i' hn' with ⟨d', hd', hpar⟩
    have hdd : d' = d := by
      rw [hd] at hd'
      exact (Option.some.inj hd').symm
    subst hdd
    rcases hpar q hq with hnil | hex
    · exact absurd hnil (by simp)
    · exact hex
  induction hdep using Relation.TransGen.head_induction_on generalizing n with
  | base hstep =>
    exact direct n _ j hn hstep
  | ih hstep htg ihp =>
    rcases direct n _ _ hn hstep with ⟨m, hm, hqm⟩
    rcases ihp m hqm with ⟨m', hm', hq'⟩
    exact ⟨m', Nat.lt_trans hm' hm, hq'⟩

/-- C3, witness: a two-transaction chain (parent at index 1, child at index
2) is extracted as `[1, 2]`; the child at position 1 depends on the parent,
which indeed appears at the earlier position 0. -/
theorem C3_witness :
    ∃ m, m < 1 ∧ ([1, 2] : List Nat).get? m = some 1 :=
  C3_theorem
    ⟨⟨⟨1000, 1000, 10⟩, 10, false, []⟩,
     ⟨[(1, ⟨⟨1, 50, 5, 1, [], [], none⟩, 0, [], [2], 9, 2, 90⟩),
       (2, ⟨⟨2, 40, 4, 1, [], [], none⟩, 1, [1], [], 4, 1, 40⟩)], 3, 2⟩,
     ⟨[]⟩, ⟨[(⟨50, 5, 0, 1⟩, 1)], [(1, 0)]⟩, true, ⟨[], []⟩,
     [(1, 1), (2, 2)], 9, 2⟩
    5
    [⟨1, 50, 5, 1, [], [], none⟩, ⟨2, 40, 4, 1, [], [], none⟩]
    ⟨⟨⟨1000, 1000, 10⟩, 10, false, []⟩, ⟨[], 3, 2⟩, ⟨[]⟩, ⟨[], []⟩, true,
     ⟨[], []⟩, [], 9, 2⟩
    [1, 2] ⟨[], []⟩
    (by rfl) (by rfl) 1 2 1 (by rfl)
    (Relation.TransGen.single ⟨⟨⟨2, 40, 4, 1, [], [], none⟩, 1, [1], [], 4, 1, 40⟩,
      by rfl, by decide⟩)
